import Mathlib

/-!
# go-astibob: the hearing ability loop, the key normaliser, the ability toggle
handler and the top-level run

A shallow embedding of

* `abilities/hearing/ability.go` (`NewAbility`, `Ability.Run`),
* `bob.go` (`key`, `Bob.Run`, `dispatchWsEventToClient`),
* `server_clients.go` (`handleWebsocketAbilityToggle`),

followed by theorems about them.
-/

namespace Astibob

/-! ## Errors (`github.com/pkg/errors`) -/

/-- A non-nil Go `error` value: either an error created elsewhere, or the
result of `errors.Wrap` around a non-nil error. A Go `error` that may be nil is
an `Option Error`. -/
inductive Error where
  | root (msg : String)
  | wrapped (inner : Error) (msg : String)
  deriving DecidableEq

/-- The function `errors.Cause`: strip every `errors.Wrap` layer. -/
def Error.cause : Error → Error
  | .root m => .root m
  | .wrapped inner _ => inner.cause

/-- The function `errors.Wrap(err, msg)`: nil when `err` is nil, a wrapper around it otherwise. -/
def errorsWrap (err : Option Error) (msg : String) : Option Error :=
  match err with
  | none => none
  | some e => some (.wrapped e msg)

/-- The error `context.Canceled`. -/
def contextCanceled : Error := .root "context canceled"

/-- The error `context.DeadlineExceeded`. -/
def contextDeadlineExceeded : Error := .root "context deadline exceeded"

/-! ## binary64 arithmetic

`Ability.Run` computes its dispatch count in `float64`. A finite binary64 value
is represented by a pair `(m, e)` standing for `m * 2^e`; every operation
computes the exact result and rounds it to 53 significant bits, ties to even.
Exponent overflow and subnormals are not modelled: the magnitudes produced from
an `int` rate and a `time.Duration` stay between `1e-9` and `2^97`. -/

/-- A finite binary64 value `m * 2^e`. -/
structure F64 where
  m : Int
  e : Int
  deriving DecidableEq

/-- The position of the highest set bit, `floor (log2 n)`, by halving; `fuel`
bounds the number of halvings. -/
def ilog2Aux : Nat → Nat → Nat
  | 0, _ => 0
  | fuel + 1, n => if n < 2 then 0 else ilog2Aux fuel (n / 2) + 1

/-- The integer `floor (log2 n)` for `n > 0`, and `0` for `n = 0`. -/
def ilog2 (n : Nat) : Nat := ilog2Aux n n

/-- Round the positive rational `p / q` to 53 significant bits, ties to even.
The result is `(m, e)` with `2^52 ≤ m ≤ 2^53`. -/
def roundPos (p q : Nat) : Nat × Int :=
  let e0 : Int := (ilog2 p : Int) - (ilog2 q : Int)
  -- `2^e ≤ p / q < 2^(e+1)`
  let e : Int := if q * 2 ^ e0.toNat ≤ p * 2 ^ (-e0).toNat then e0 else e0 - 1
  let s : Int := 52 - e
  let num := p * 2 ^ s.toNat
  let den := q * 2 ^ (-s).toNat
  let m := num / den
  let r := num % den
  if den < 2 * r ∨ (2 * r = den ∧ m % 2 = 1) then (m + 1, -s) else (m, -s)

/-- Round the rational `n / d` (`d > 0`) to binary64. -/
def roundRat (n : Int) (d : Nat) : F64 :=
  if n = 0 then ⟨0, 0⟩
  else
    let r := roundPos n.natAbs d
    if n < 0 then ⟨-(r.1 : Int), r.2⟩ else ⟨(r.1 : Int), r.2⟩

/-- The conversion `float64(n)` of an integer. -/
def F64.ofInt (n : Int) : F64 := roundRat n 1

/-- The binary64 product. -/
def F64.mul (a b : F64) : F64 :=
  let e := a.e + b.e
  roundRat (a.m * b.m * 2 ^ e.toNat) (2 ^ (-e).toNat)

/-- The binary64 sum. -/
def F64.add (a b : F64) : F64 :=
  let e := min a.e b.e
  roundRat ((a.m * 2 ^ (a.e - e).toNat + b.m * 2 ^ (b.e - e).toNat) * 2 ^ e.toNat)
    (2 ^ (-e).toNat)

/-- The binary64 quotient `a / b` for `b > 0`. -/
def F64.div (a b : F64) : F64 :=
  let e := a.e - b.e
  roundRat (a.m * 2 ^ e.toNat) (b.m.natAbs * 2 ^ (-e).toNat)

/-- The function `math.Floor`: the largest integer not above `x` (an integer is
a binary64 value again, so nothing is rounded). -/
def F64.floor (x : F64) : Int :=
  if 0 ≤ x.e then x.m * 2 ^ x.e.toNat else x.m / 2 ^ (-x.e).toNat

/-- What the Go implementation and the machine at hand decide.

* `intOfFloat v` is the result of the conversion `int(x)` of a float of integer
  value `v` that does not fit the 64-bit `int`; the language leaves it to the
  implementation (amd64 yields `-2^63`).
* `maxSliceLen` is the largest length `make([]int32, n)` accepts; beyond it the
  allocation panics with "len out of range" (`2^46` with 48 address bits).
* `provides n` tells whether the machine has the memory for the buffers of a
  run with dispatch count `n`: the buffer of `make`, its growth by `append`, and
  the copies that are dispatched. -/
structure Runtime where
  intOfFloat : Int → Int
  maxSliceLen : Nat
  provides : Nat → Bool

/-- The conversion `int(x)` of a float of integer value `v`. -/
def Runtime.toInt (rt : Runtime) (v : Int) : Int :=
  if -2 ^ 63 ≤ v ∧ v < 2 ^ 63 then v else rt.intOfFloat v

/-- The rational value of a binary64 number. -/
def F64.toRat (x : F64) : ℚ := (x.m : ℚ) * (2 : ℚ) ^ x.e

/-- The binary64 representation of `z / 2^j` for a non-zero integer `z` of at
most 53 bits: the mantissa is `z` shifted up to 53 bits. -/
def F64.dyadic (z : Int) (j : Nat) : F64 :=
  ⟨z * 2 ^ (52 - ilog2 z.natAbs), -(((52 - ilog2 z.natAbs) + j : Nat) : Int)⟩

/-! ## `time.Duration` -/

/-- The constant `time.Second`, in nanoseconds. -/
def Second : Int := 1000000000

/-- The constant `time.Millisecond`, in nanoseconds. -/
def Millisecond : Int := 1000000

/-- The method `Duration.Seconds`: `float64(d / Second) + float64(d % Second) / 1e9`, with
Go's truncating integer division. -/
def Seconds (d : Int) : F64 :=
  let sec := Int.tdiv d Second
  let nsec := Int.tmod d Second
  F64.add (F64.ofInt sec) (F64.div (F64.ofInt nsec) (F64.ofInt 1000000000))

/-! ## `abilities/hearing` -/

/-- The constant `name` of the hearing package. -/
def name : String := "Hearing"

/-- The constant `websocketEventNameSamples`. -/
def websocketEventNameSamples : String := "samples"

/-- The optional `Starter` side of a reader: what its `Start` and its `Stop`
return when called. -/
structure Starter where
  Start : Option Error
  Stop : Option Error

/-- A `SampleReader`: `ReadSample i` is what the call number `i` (from 0) of
`ReadSample` returns; `starter` is present when the reader also implements
`Starter` (the type assertion `a.r.(Starter)` succeeds). -/
structure SampleReader where
  ReadSample : Nat → Except Error Int
  starter : Option Starter

/-- The struct `AbilityConfiguration`; `DispatchDuration` is a `time.Duration`
in nanoseconds. -/
structure AbilityConfiguration where
  DispatchDuration : Int
  SampleRate : Int
  SignificantBits : Int
  SilenceMaxAudioLevel : F64

/-- The struct `Ability`. `dispatchFunc` records whether a dispatch function
has been set (`a.dispatchFunc != nil`); the events handed to it are recorded in
the trace of `Run`. -/
structure Ability where
  c : AbilityConfiguration
  dispatchFunc : Bool
  r : SampleReader

/-- The function `NewAbility`: a zero `DispatchDuration` is replaced by 500ms. -/
def NewAbility (r : SampleReader) (c : AbilityConfiguration) : Ability :=
  let a : Ability := { c := c, dispatchFunc := false, r := r }
  if a.c.DispatchDuration = 0 then
    { a with c := { a.c with DispatchDuration := 500 * Millisecond } }
  else a

/-- The method `SetDispatchFunc` with a non-nil function. -/
def Ability.SetDispatchFunc (a : Ability) : Ability := { a with dispatchFunc := true }

/-- The struct `PayloadSamples`. -/
structure PayloadSamples where
  SampleRate : Int
  Samples : List Int
  SignificantBits : Int
  SilenceMaxAudioLevel : F64
  deriving DecidableEq

/-- An `astibrain.Event` carrying a samples payload. -/
structure Event where
  AbilityName : String
  Name : String
  Payload : PayloadSamples
  deriving DecidableEq

/-- What `Run` does to the outside world, in order. -/
inductive Action where
  | start
  | readSample
  | dispatch (e : Event)
  | stop
  deriving DecidableEq

/-- How an execution of `Run` stands after a number of loop iterations. -/
inductive Outcome where
  /-- The call returned `err`. -/
  | returned (err : Option Error)
  /-- The allocation `make([]int32, dispatchCount)` panicked: the length is
  negative or out of range. -/
  | panicked
  /-- The machine does not provide the buffers of the run: an allocation may
  fail somewhere (a panic in `append`, or the runtime stops out of memory). Such
  a run is not modelled: nothing is said of its trace or of its end. -/
  | unmodelled
  /-- The loop is still running; `buf` is its buffer. -/
  | running (buf : List Int)
  deriving DecidableEq

/-- The actions of an execution, the errors it logged, and where it stands. -/
structure RunResult where
  trace : List Action
  logged : List Error
  outcome : Outcome
  deriving DecidableEq

/-- The "get dispatch count" block of `Run`. -/
def dispatchCount (rt : Runtime) (c : AbilityConfiguration) : Int :=
  if c.DispatchDuration > 0 then
    rt.toInt (F64.floor (F64.mul (F64.ofInt c.SampleRate) (Seconds c.DispatchDuration)))
  else c.SampleRate

/-- The event dispatched for a full buffer. -/
def samplesEvent (a : Ability) (dispatchBuf : List Int) : Event :=
  { AbilityName := name
    Name := websocketEventNameSamples
    Payload :=
      { SampleRate := a.c.SampleRate
        Samples := dispatchBuf
        SignificantBits := a.c.SignificantBits
        SilenceMaxAudioLevel := a.c.SilenceMaxAudioLevel } }

/-- Put actions in front of the trace of a result. -/
def RunResult.after (pre : List Action) (r : RunResult) : RunResult :=
  { r with trace := pre ++ r.trace }

/-- The `for` loop of `Run`. `ctxErr i` is what `ctx.Err()` returns at the top of
iteration `i` (after `i` reads), `n` is the dispatch count, `i` the iteration,
`buf` the buffer; `fuel` bounds the number of iterations executed. -/
def runLoop (a : Ability) (ctxErr : Nat → Option Error) (n : Int) :
    Nat → Nat → List Int → RunResult
  | 0, _, buf => ⟨[], [], .running buf⟩
  | fuel + 1, i, buf =>
    match ctxErr i with
    | some e => ⟨[], [], .returned (errorsWrap (some e) "astihearing: context error")⟩
    | none =>
      match a.r.ReadSample i with
      | .error e =>
        ⟨[.readSample], [], .returned (errorsWrap (some e) "astihearing: reading sample failed")⟩
      | .ok s =>
        let buf := buf ++ [s]
        if (buf.length : Int) ≥ n then
          let dispatchBuf := buf
          let acts := if a.dispatchFunc then [Action.dispatch (samplesEvent a dispatchBuf)] else []
          (runLoop a ctxErr n fuel (i + 1) []).after (Action.readSample :: acts)
        else
          (runLoop a ctxErr n fuel (i + 1) buf).after [Action.readSample]

/-- The part of `Run` after the reader has been started: the dispatch count, the
allocation `make([]int32, dispatchCount)` of a buffer of that LENGTH (it panics
when the length is negative or above `maxSliceLen`), and the loop, which runs
when the machine provides its buffers. -/
def runBody (rt : Runtime) (a : Ability) (ctxErr : Nat → Option Error) (fuel : Nat) :
    RunResult :=
  let dispatchCount := dispatchCount rt a.c
  if dispatchCount < 0 ∨ (rt.maxSliceLen : Int) < dispatchCount then ⟨[], [], .panicked⟩
  else if rt.provides dispatchCount.toNat = false then ⟨[], [], .unmodelled⟩
  else runLoop a ctxErr dispatchCount fuel 0 (List.replicate dispatchCount.toNat 0)

/-- The deferred function of `Run`: it runs once `Run` leaves (by a return or by
a panic), calls `Stop` and logs its error; the error `Run` returns is untouched
(the deferred function assigns to a variable of its own). -/
def deferredStop (v : Starter) (r : RunResult) : RunResult :=
  match r.outcome with
  | .running _ => r
  | .unmodelled => r
  | _ =>
    { r with
      trace := r.trace ++ [Action.stop]
      logged := r.logged ++
        (match errorsWrap v.Stop "astihearing: stopping reader failed" with
         | some e => [e]
         | none => []) }

/-- The method `Ability.Run`, executed for at most `fuel` loop iterations. -/
def Ability.Run (a : Ability) (rt : Runtime) (ctxErr : Nat → Option Error) (fuel : Nat) :
    RunResult :=
  match a.r.starter with
  | some v =>
    match v.Start with
    | some e =>
      ⟨[.start], [], .returned (errorsWrap (some e) "astihearing: starting reader failed")⟩
    | none => (deferredStop v (runBody rt a ctxErr fuel)).after [Action.start]
  | none => runBody rt a ctxErr fuel

/-- The events of a trace, in dispatch order. -/
def dispatched : List Action → List Event
  | [] => []
  | .dispatch e :: t => e :: dispatched t
  | _ :: t => dispatched t

/-- The `Stop` call the deferred function adds when `Run` leaves: present only
for a reader that implements `Starter`. -/
def teardown (a : Ability) : List Action :=
  match a.r.starter with
  | some _ => [Action.stop]
  | none => []

/-- The same ability with a reader whose `Stop` returns `stop`. -/
def Ability.withStop (a : Ability) (stop : Option Error) : Ability :=
  { a with r := { a.r with starter := a.r.starter.map (fun v => { v with Stop := stop }) } }

/-- The run reaches its loop: the dispatch count is a length `make` accepts and
the machine provides the buffers. -/
def reachesLoop (rt : Runtime) (a : Ability) : Prop :=
  0 ≤ dispatchCount rt a.c ∧ dispatchCount rt a.c ≤ (rt.maxSliceLen : Int) ∧
    rt.provides (dispatchCount rt a.c).toNat = true

/-! ## Example runtime, readers, contexts and configurations -/

/-- A 64-bit Linux on amd64 with memory for buffers of up to `2^30` samples: an
out-of-range conversion yields `-2^63`, and `make([]int32, n)` accepts up to
`2^46` entries. -/
def linuxAmd64 : Runtime :=
  { intOfFloat := fun _ => -2 ^ 63
    maxSliceLen := 2 ^ 46
    provides := fun n => decide (n ≤ 2 ^ 30) }

/-- A configuration whose dispatch count does not fit an `int`: the largest
`int` as sample rate, dispatched every 2 seconds. -/
def hugeConfig : AbilityConfiguration :=
  { DispatchDuration := 2 * Second, SampleRate := 2 ^ 63 - 1, SignificantBits := 32,
    SilenceMaxAudioLevel := ⟨0, 0⟩ }

/-- A reader without `Start`/`Stop` whose read number `i` returns the sample `i + 1`. -/
def plainReader : SampleReader := ⟨fun i => .ok ((i : Int) + 1), none⟩

/-- A reader with the `Start`/`Stop` lifecycle whose read number `i` returns the
sample `i + 1`. -/
def lifecycleReader (start stop : Option Error) : SampleReader :=
  ⟨fun i => .ok ((i : Int) + 1), some ⟨start, stop⟩⟩

/-- A reader whose read number `k` fails with `e`; the other reads return the
sample `i + 1`. -/
def failingReader (k : Nat) (e : Error) (starter : Option Starter) : SampleReader :=
  ⟨fun i => if i = k then .error e else .ok ((i : Int) + 1), starter⟩

/-- A context that is cancelled once `k` reads have been made. -/
def cancelledAfter (k : Nat) : Nat → Option Error :=
  fun i => if k ≤ i then some contextCanceled else none

/-- A context that is never cancelled. -/
def background : Nat → Option Error := fun _ => none

/-- The configuration of the scenario: 16000 samples per second, dispatched
every 500ms. -/
def hearingConfig : AbilityConfiguration :=
  { DispatchDuration := 500 * Millisecond, SampleRate := 16000, SignificantBits := 32,
    SilenceMaxAudioLevel := ⟨0, 0⟩ }

/-- A small configuration: 4 samples per second, dispatched every 500ms. -/
def smallConfig : AbilityConfiguration :=
  { DispatchDuration := 500 * Millisecond, SampleRate := 4, SignificantBits := 32,
    SilenceMaxAudioLevel := ⟨0, 0⟩ }

/-- The ability of the scenario on a reader whose reads all succeed, with a
dispatch function set. -/
def hearingAbility : Ability := (NewAbility plainReader hearingConfig).SetDispatchFunc

/-- An ability whose reader has the lifecycle, fails its fourth read with
"device lost", and fails to stop. -/
def failingAbility : Ability :=
  (NewAbility (failingReader 3 (.root "device lost") (some ⟨none, some (.root "busy")⟩))
    smallConfig).SetDispatchFunc

/-- An ability whose reader fails to start. -/
def unstartableAbility : Ability :=
  (NewAbility (lifecycleReader (some (.root "no device")) none) smallConfig).SetDispatchFunc

/-- The scenario's configuration with no dispatch period configured. -/
def noPeriodConfig : AbilityConfiguration := { hearingConfig with DispatchDuration := 0 }

/-- A configuration of 16000 samples per second dispatched every 2 seconds. -/
def twoSecondsConfig : AbilityConfiguration :=
  { hearingConfig with DispatchDuration := 2 * Second }

/-! ## `bob.go`: `key` -/

/-- The class `\w` of Go's regexp syntax: `[0-9A-Za-z_]`. -/
def isWordChar (c : Char) : Bool :=
  ('0' ≤ c ∧ c ≤ '9') ∨ ('A' ≤ c ∧ c ≤ 'Z') ∨ ('a' ≤ c ∧ c ≤ 'z') ∨ c = '_'

/-- The call `regexpKey.ReplaceAllString(src, repl)` for `regexpKey = [^\w]+` and
a replacement without `$`: scanning `src` from the left, every match (a longest
stretch of characters outside `\w`, the `+` being greedy) is replaced by `repl`.
`inMatch` tells that the character before the current one belongs to a match
that is being skipped. -/
def regexpKeyReplaceAll (repl : List Char) : Bool → List Char → List Char
  | _, [] => []
  | inMatch, c :: rest =>
    if isWordChar c then c :: regexpKeyReplaceAll repl false rest
    else if inMatch then regexpKeyReplaceAll repl true rest
    else repl ++ regexpKeyReplaceAll repl true rest

/-- The function `strings.ToLower`: the rune map `toLower` (Go's
`unicode.ToLower`, whose case table is a parameter) applied to every rune. A
string is the list of its runes (valid UTF-8). -/
def stringsToLower (toLower : Char → Char) (s : List Char) : List Char := s.map toLower

/-- The function `key`. -/
def key (toLower : Char → Char) (name : List Char) : List Char :=
  regexpKeyReplaceAll ['-'] false (stringsToLower toLower name)

/-- The maximal runs of a string: it is cut wherever a word character meets a
non-word character. -/
def maximalRuns (s : List Char) : List (List Char) :=
  s.splitBy (fun a b => isWordChar a == isWordChar b)

/-- A run of non-word characters becomes the single separator `-`; any other
run is kept. -/
def collapseRun (run : List Char) : List Char :=
  if run.all (fun c => !isWordChar c) then ['-'] else run

/-- The key as the specification words it: the lower-cased name in which every
maximal run of non-word characters is replaced by one separator `-`. -/
def keySpec (toLower : Char → Char) (name : List Char) : List Char :=
  ((maximalRuns (name.map toLower)).map collapseRun).flatten

/-! ## `server_clients.go`: `handleWebsocketAbilityToggle` -/

/-- The constant `clientsWebsocketEventNameAbilityStart`. -/
def clientsWebsocketEventNameAbilityStart : String := "ability.start"

/-- The constant `clientsWebsocketEventNameAbilityStop`. -/
def clientsWebsocketEventNameAbilityStop : String := "ability.stop"

/-- The struct `EventAbility` decoded from the payload. -/
structure EventAbility where
  BrainName : String
  Name : String
  deriving DecidableEq

/-- A brain of the registry: its name, its websocket client `ws` (an
identifier), and its ability lookup `ability` (whether an ability of that name
is found). -/
structure Brain where
  name : String
  ws : Nat
  ability : String → Bool

/-- What the handler needs from the code outside the file: `unmarshal` is
`json.Unmarshal` into an `EventAbility`, `brain` is the registry lookup
`s.brains.brain`, `write` is the result of `c.Write(name, payload)` on a client,
and the two event names are the constants of the `astibrain` package. -/
structure ClientsServer where
  unmarshal : String → Except Error EventAbility
  brain : String → Option Brain
  write : Nat → String → String → Option Error
  WebsocketEventNameAbilityStart : String
  WebsocketEventNameAbilityStop : String

/-- A call `c.Write(name, payload)` on the websocket client `client`. -/
structure WsWrite where
  client : Nat
  name : String
  payload : String
  deriving DecidableEq

/-- The effects and the result of a handler call. -/
structure HandlerResult where
  writes : List WsWrite
  logged : Nat
  err : Option Error
  deriving DecidableEq

/-- The function `dispatchWsEventToClient`: one `Write` on the client; its
error is logged. -/
def dispatchWsEventToClient (s : ClientsServer) (c : Nat) (name payload : String) :
    List WsWrite × Nat :=
  match s.write c name payload with
  | some _ => ([⟨c, name, payload⟩], 1)
  | none => ([⟨c, name, payload⟩], 0)

/-- The method `handleWebsocketAbilityToggle`. -/
def handleWebsocketAbilityToggle (s : ClientsServer) (eventName : String) (payload : String) :
    HandlerResult :=
  match s.unmarshal payload with
  | .error _ => ⟨[], 1, none⟩
  | .ok e =>
    match s.brain e.BrainName with
    | none => ⟨[], 1, none⟩
    | some b =>
      if !b.ability e.Name then ⟨[], 1, none⟩
      else
        let eventNameBrain :=
          if eventName = clientsWebsocketEventNameAbilityStart then
            s.WebsocketEventNameAbilityStart
          else s.WebsocketEventNameAbilityStop
        let w := dispatchWsEventToClient s b.ws eventNameBrain e.Name
        ⟨w.1, w.2, none⟩

/-! ## `bob.go`: `Bob.Run` -/

/-- What `Bob.Run` waits on. `ctxErr` is `b.ctx.Err()` (non-nil once the context
is done); `brainsRun` and `clientsRun` are what the two servers' `run` returned,
`none` while a server is still running. -/
structure BobWorld where
  ctxErr : Option Error
  brainsRun : Option (Option Error)
  clientsRun : Option (Option Error)

/-- One of the two goroutines of `Bob.Run`: it sends on `chanDone` only when its
server's `run` has returned a non-nil error. The result is the value sent. -/
def serverGoroutine (run : Option (Option Error)) : Option Error :=
  match run with
  | some (some err) => some err
  | _ => none

/-- The case the `select` of `Bob.Run` takes. -/
inductive SelectCase where
  | ctxDone
  | chanDoneBrains
  | chanDoneClients
  deriving DecidableEq

/-- The method `Bob.Run` when its `select` takes the case `choice`: `none` when
that case is not ready (the context is not done, or no goroutine is sending),
otherwise the error `Run` returns. -/
def BobRun (w : BobWorld) (choice : SelectCase) : Option (Option Error) :=
  let err : Option Error := none
  match choice with
  | .ctxDone =>
    match w.ctxErr with
    | none => none
    | some ctxErr =>
      if ctxErr ≠ contextCanceled then some (errorsWrap err "astibob: context error")
      else some err
  | .chanDoneBrains =>
    match serverGoroutine w.brainsRun with
    | none => none
    | some sent =>
      let err : Option Error := some sent
      if err ≠ none then some (errorsWrap err "astibob: running servers failed") else some err
  | .chanDoneClients =>
    match serverGoroutine w.clientsRun with
    | none => none
    | some sent =>
      let err : Option Error := some sent
      if err ≠ none then some (errorsWrap err "astibob: running servers failed") else some err

/-- A clients server that knows one brain, "Hearing Brain" on websocket client
7, with the single ability "Hearing"; payload "p1" decodes to that brain and
ability, "p2" to the same brain and an unknown ability, "p3" to an unknown
brain, and anything else does not decode. -/
def exampleServer : ClientsServer :=
  { unmarshal := fun p =>
      if p = "p1" then .ok ⟨"Hearing Brain", "Hearing"⟩
      else if p = "p2" then .ok ⟨"Hearing Brain", "Seeing"⟩
      else if p = "p3" then .ok ⟨"Other Brain", "Hearing"⟩
      else .error (.root "invalid character")
    brain := fun n => if n = "Hearing Brain" then some ⟨n, 7, fun ab => ab == "Hearing"⟩ else none
    write := fun _ _ _ => none
    WebsocketEventNameAbilityStart := "ability.start"
    WebsocketEventNameAbilityStop := "ability.stop" }

/-- A world in which the brains server has failed with "listen failed", the
clients server has returned without error, and the context is cancelled. -/
def failedBrainsWorld : BobWorld :=
  { ctxErr := some contextCanceled
    brainsRun := some (some (.root "listen failed"))
    clientsRun := some none }

/-- The rune U+212A KELVIN SIGN. -/
def kelvinSign : Char := Char.ofNat 0x212A

/-- A lower-casing that agrees with `unicode.ToLower` on the ASCII runes and on
the KELVIN SIGN, which is lower-cased to `k`; the other runes are left as they
are. -/
def kelvinToLower (c : Char) : Char := if c = kelvinSign then 'k' else c.toLower

/-! ## The loop of `Ability.Run` -/

section RunLoop

variable (a : Ability) (ctxErr : Nat → Option Error) (n : Int)

theorem runLoop_zero (i : Nat) (buf : List Int) :
    runLoop a ctxErr n 0 i buf = ⟨[], [], .running buf⟩ := rfl

theorem runLoop_cancelled (fuel i : Nat) (buf : List Int) (e : Error) (h : ctxErr i = some e) :
    runLoop a ctxErr n (fuel + 1) i buf =
      ⟨[], [], .returned (some (.wrapped e "astihearing: context error"))⟩ := by
  simp [runLoop, h, errorsWrap]

theorem runLoop_readFailed (fuel i : Nat) (buf : List Int) (e : Error) (h : ctxErr i = none)
    (hr : a.r.ReadSample i = .error e) :
    runLoop a ctxErr n (fuel + 1) i buf =
      ⟨[.readSample], [], .returned (some (.wrapped e "astihearing: reading sample failed"))⟩ := by
  simp [runLoop, h, hr, errorsWrap]

theorem runLoop_full (fuel i : Nat) (buf : List Int) (s : Int) (h : ctxErr i = none)
    (hr : a.r.ReadSample i = .ok s) (hn : n ≤ ((buf ++ [s]).length : Int)) :
    runLoop a ctxErr n (fuel + 1) i buf =
      (runLoop a ctxErr n fuel (i + 1) []).after
        (Action.readSample ::
          (if a.dispatchFunc then [Action.dispatch (samplesEvent a (buf ++ [s]))] else [])) := by
  rw [runLoop]
  simp only [h, hr]
  rw [if_pos hn]

theorem runLoop_short (fuel i : Nat) (buf : List Int) (s : Int) (h : ctxErr i = none)
    (hr : a.r.ReadSample i = .ok s) (hn : ¬ n ≤ ((buf ++ [s]).length : Int)) :
    runLoop a ctxErr n (fuel + 1) i buf =
      (runLoop a ctxErr n fuel (i + 1) (buf ++ [s])).after [Action.readSample] := by
  rw [runLoop]
  simp only [h, hr]
  rw [if_neg hn]

theorem runLoop_logged (fuel i : Nat) (buf : List Int) :
    (runLoop a ctxErr n fuel i buf).logged = [] := by
  induction fuel generalizing i buf with
  | zero => rfl
  | succ fuel ih =>
    cases hc : ctxErr i with
    | some e => rw [runLoop_cancelled a ctxErr n fuel i buf e hc]
    | none =>
      cases hr : a.r.ReadSample i with
      | error e => rw [runLoop_readFailed a ctxErr n fuel i buf e hc hr]
      | ok s =>
        by_cases hn : n ≤ ((buf ++ [s]).length : Int)
        · rw [runLoop_full a ctxErr n fuel i buf s hc hr hn]
          simp [RunResult.after, ih]
        · rw [runLoop_short a ctxErr n fuel i buf s hc hr hn]
          simp [RunResult.after, ih]

theorem after_after (p q : List Action) (r : RunResult) :
    (r.after q).after p = r.after (p ++ q) := by
  simp [RunResult.after]

/-- Running `f1 + f2` iterations is running `f1` iterations and, when the loop
is still going, `f2` more from the buffer reached. -/
theorem runLoop_add (f1 f2 i : Nat) (buf buf1 : List Int)
    (h : (runLoop a ctxErr n f1 i buf).outcome = .running buf1) :
    runLoop a ctxErr n (f1 + f2) i buf =
      (runLoop a ctxErr n f2 (i + f1) buf1).after (runLoop a ctxErr n f1 i buf).trace := by
  induction f1 generalizing i buf with
  | zero =>
    simp only [runLoop, Outcome.running.injEq] at h
    subst h
    simp [runLoop, RunResult.after]
  | succ f1 ih =>
    have e1 : f1 + 1 + f2 = (f1 + f2) + 1 := by omega
    have e2 : i + (f1 + 1) = i + 1 + f1 := by omega
    rw [e1, e2]
    cases hc : ctxErr i with
    | some e =>
      rw [runLoop_cancelled a ctxErr n f1 i buf e hc] at h
      simp at h
    | none =>
      cases hr : a.r.ReadSample i with
      | error e =>
        rw [runLoop_readFailed a ctxErr n f1 i buf e hc hr] at h
        simp at h
      | ok s =>
        by_cases hn : n ≤ ((buf ++ [s]).length : Int)
        · rw [runLoop_full a ctxErr n f1 i buf s hc hr hn] at h ⊢
          rw [runLoop_full a ctxErr n (f1 + f2) i buf s hc hr hn]
          have h1 : (runLoop a ctxErr n f1 (i + 1) []).outcome = .running buf1 := by
            simpa [RunResult.after] using h
          rw [ih (i + 1) [] h1, after_after]
          simp [RunResult.after]
        · rw [runLoop_short a ctxErr n f1 i buf s hc hr hn] at h ⊢
          rw [runLoop_short a ctxErr n (f1 + f2) i buf s hc hr hn]
          have h1 : (runLoop a ctxErr n f1 (i + 1) (buf ++ [s])).outcome = .running buf1 := by
            simpa [RunResult.after] using h
          rw [ih (i + 1) _ h1, after_after]
          simp [RunResult.after]

/-- While the context is live and the reads succeed the loop keeps running, and
it has made one `ReadSample` call per iteration. -/
theorem runLoop_running (fuel i : Nat) (buf : List Int)
    (hctx : ∀ j, j < fuel → ctxErr (i + j) = none)
    (hread : ∀ j, j < fuel → ∃ s, a.r.ReadSample (i + j) = .ok s) :
    (∃ buf1, (runLoop a ctxErr n fuel i buf).outcome = .running buf1) ∧
      (runLoop a ctxErr n fuel i buf).trace.count Action.readSample = fuel ∧
      (runLoop a ctxErr n fuel i buf).trace.count Action.stop = 0 ∧
      (runLoop a ctxErr n fuel i buf).trace.count Action.start = 0 := by
  induction fuel generalizing i buf with
  | zero => exact ⟨⟨buf, rfl⟩, rfl, rfl, rfl⟩
  | succ fuel ih =>
    have hc := hctx 0 (Nat.succ_pos _)
    obtain ⟨s, hs⟩ := hread 0 (Nat.succ_pos _)
    simp only [Nat.add_zero] at hc hs
    have hctx1 : ∀ j, j < fuel → ctxErr (i + 1 + j) = none := fun j hj => by
      have := hctx (j + 1) (by omega)
      rwa [show i + 1 + j = i + (j + 1) by omega]
    have hread1 : ∀ j, j < fuel → ∃ s, a.r.ReadSample (i + 1 + j) = .ok s := fun j hj => by
      have := hread (j + 1) (by omega)
      rwa [show i + 1 + j = i + (j + 1) by omega]
    by_cases hn : n ≤ ((buf ++ [s]).length : Int)
    · rw [runLoop_full a ctxErr n fuel i buf s hc hs hn]
      obtain ⟨⟨b, hb⟩, h2, h3, h4⟩ := ih (i + 1) [] hctx1 hread1
      refine ⟨⟨b, by simpa [RunResult.after] using hb⟩, ?_, ?_, ?_⟩
      · by_cases hd : a.dispatchFunc <;>
          simp [RunResult.after, hd, List.count_cons, h2]
      · by_cases hd : a.dispatchFunc <;>
          simp [RunResult.after, hd, List.count_cons, h3]
      · by_cases hd : a.dispatchFunc <;>
          simp [RunResult.after, hd, List.count_cons, h4]
    · rw [runLoop_short a ctxErr n fuel i buf s hc hs hn]
      obtain ⟨⟨b, hb⟩, h2, h3, h4⟩ := ih (i + 1) (buf ++ [s]) hctx1 hread1
      refine ⟨⟨b, by simpa [RunResult.after] using hb⟩, ?_, ?_, ?_⟩
      · simp [RunResult.after, List.count_cons, h2]
      · simp [RunResult.after, List.count_cons, h3]
      · simp [RunResult.after, List.count_cons, h4]

/-- While the buffer stays short of the dispatch count nothing is dispatched:
the loop only reads, and the buffer grows by one sample per iteration. -/
theorem runLoop_quiet (fuel i : Nat) (buf : List Int)
    (hctx : ∀ j, j < fuel → ctxErr (i + j) = none)
    (hread : ∀ j, j < fuel → ∃ s, a.r.ReadSample (i + j) = .ok s)
    (hshort : ((buf.length + fuel : Nat) : Int) < n) :
    ∃ buf1, runLoop a ctxErr n fuel i buf =
        ⟨List.replicate fuel Action.readSample, [], .running buf1⟩ ∧
      buf1.length = buf.length + fuel := by
  induction fuel generalizing i buf with
  | zero => exact ⟨buf, rfl, rfl⟩
  | succ fuel ih =>
    have hc := hctx 0 (Nat.succ_pos _)
    obtain ⟨s, hs⟩ := hread 0 (Nat.succ_pos _)
    simp only [Nat.add_zero] at hc hs
    have hctx1 : ∀ j, j < fuel → ctxErr (i + 1 + j) = none := fun j hj => by
      have := hctx (j + 1) (by omega)
      rwa [show i + 1 + j = i + (j + 1) by omega]
    have hread1 : ∀ j, j < fuel → ∃ s, a.r.ReadSample (i + 1 + j) = .ok s := fun j hj => by
      have := hread (j + 1) (by omega)
      rwa [show i + 1 + j = i + (j + 1) by omega]
    have hn : ¬ n ≤ ((buf ++ [s]).length : Int) := by
      simp only [List.length_append, List.length_singleton]
      push_cast at hshort ⊢
      omega
    have hshort1 : (((buf ++ [s]).length + fuel : Nat) : Int) < n := by
      simp only [List.length_append, List.length_singleton]
      push_cast at hshort ⊢
      omega
    obtain ⟨b, hb, hlen⟩ := ih (i + 1) (buf ++ [s]) hctx1 hread1 hshort1
    refine ⟨b, ?_, ?_⟩
    · rw [runLoop_short a ctxErr n fuel i buf s hc hs hn, hb]
      simp [RunResult.after, List.replicate_succ]
    · rw [hlen]
      simp only [List.length_append, List.length_singleton]
      omega

/-- The loop does not look at the reader's `Stop`. -/
theorem runLoop_withStop (stop : Option Error) (fuel i : Nat) (buf : List Int) :
    runLoop (a.withStop stop) ctxErr n fuel i buf = runLoop a ctxErr n fuel i buf := by
  induction fuel generalizing i buf with
  | zero => rfl
  | succ fuel ih =>
    rw [runLoop, runLoop]
    simp only [ih]
    rfl

end RunLoop

/-! ## `Ability.Run` -/

theorem runBody_eq (rt : Runtime) (a : Ability) (ctxErr : Nat → Option Error) (fuel : Nat)
    (h : reachesLoop rt a) :
    runBody rt a ctxErr fuel =
      runLoop a ctxErr (dispatchCount rt a.c) fuel 0
        (List.replicate (dispatchCount rt a.c).toNat 0) := by
  obtain ⟨h0, h1, h2⟩ := h
  unfold runBody
  simp only
  rw [if_neg (by omega), if_neg (by simp [h2])]

theorem run_noStarter (rt : Runtime) (a : Ability) (ctxErr : Nat → Option Error) (fuel : Nat)
    (h : a.r.starter = none) : a.Run rt ctxErr fuel = runBody rt a ctxErr fuel := by
  simp [Ability.Run, h]

theorem run_started (rt : Runtime) (a : Ability)
    (ctxErr : Nat → Option Error) (fuel : Nat) (v : Starter)
    (h : a.r.starter = some v) (hs : v.Start = none) :
    a.Run rt ctxErr fuel = (deferredStop v (runBody rt a ctxErr fuel)).after [Action.start] := by
  simp [Ability.Run, h, hs]

theorem run_startFailed (rt : Runtime) (a : Ability)
    (ctxErr : Nat → Option Error) (fuel : Nat) (v : Starter)
    (e : Error) (h : a.r.starter = some v) (hs : v.Start = some e) :
    a.Run rt ctxErr fuel =
      ⟨[.start], [], .returned (some (.wrapped e "astihearing: starting reader failed"))⟩ := by
  simp [Ability.Run, h, hs, errorsWrap]

/-- The body after `k` good iterations: still running, `k` reads made, and any
longer execution continues from there. -/
theorem runBody_prefix (rt : Runtime) (a : Ability) (ctxErr : Nat → Option Error) (k : Nat)
    (hcount : reachesLoop rt a)
    (hctx : ∀ i, i < k → ctxErr i = none)
    (hread : ∀ i, i < k → ∃ s, a.r.ReadSample i = .ok s) :
    ∃ buf1, (runBody rt a ctxErr k).outcome = .running buf1 ∧
      (runBody rt a ctxErr k).trace.count Action.readSample = k ∧
      (runBody rt a ctxErr k).trace.count Action.stop = 0 ∧
      ∀ m, runBody rt a ctxErr (k + m) =
        (runLoop a ctxErr (dispatchCount rt a.c) m k buf1).after (runBody rt a ctxErr k).trace := by
  have hctx0 : ∀ j, j < k → ctxErr (0 + j) = none := fun j hj => by simpa using hctx j hj
  have hread0 : ∀ j, j < k → ∃ s, a.r.ReadSample (0 + j) = .ok s :=
    fun j hj => by simpa using hread j hj
  obtain ⟨⟨buf1, hb⟩, h2, h3, _⟩ :=
    runLoop_running a ctxErr (dispatchCount rt a.c) k 0
      (List.replicate (dispatchCount rt a.c).toNat 0) hctx0 hread0
  refine ⟨buf1, ?_, ?_, ?_, ?_⟩
  · rw [runBody_eq rt a ctxErr k hcount]; exact hb
  · rw [runBody_eq rt a ctxErr k hcount]; exact h2
  · rw [runBody_eq rt a ctxErr k hcount]; exact h3
  · intro m
    rw [runBody_eq rt a ctxErr k hcount, runBody_eq rt a ctxErr (k + m) hcount,
      runLoop_add a ctxErr (dispatchCount rt a.c) k m 0 _ buf1 hb]
    simp

/-- A cancellation seen at the top of iteration `k` ends the body at once: the
trace is the one of the `k` iterations made, with nothing added. -/
theorem runBody_cancelled (rt : Runtime) (a : Ability)
    (ctxErr : Nat → Option Error) (k fuel : Nat) (e : Error)
    (hcount : reachesLoop rt a)
    (hctx : ∀ i, i < k → ctxErr i = none)
    (hread : ∀ i, i < k → ∃ s, a.r.ReadSample i = .ok s)
    (hcancel : ctxErr k = some e) (hfuel : k < fuel) :
    runBody rt a ctxErr fuel =
      ⟨(runBody rt a ctxErr k).trace, [],
        .returned (some (.wrapped e "astihearing: context error"))⟩ := by
  obtain ⟨buf1, _, _, _, hadd⟩ := runBody_prefix rt a ctxErr k hcount hctx hread
  obtain ⟨m, rfl⟩ : ∃ m, fuel = k + (m + 1) := ⟨fuel - k - 1, by omega⟩
  rw [hadd (m + 1), runLoop_cancelled a ctxErr _ m k buf1 e hcancel]
  simp [RunResult.after]

/-- A failing read at iteration `k` ends the body: the trace is the one of the
`k` iterations made, followed by the failing `ReadSample` call. -/
theorem runBody_readFailed (rt : Runtime) (a : Ability)
    (ctxErr : Nat → Option Error) (k fuel : Nat) (e : Error)
    (hcount : reachesLoop rt a)
    (hctx : ∀ i, i ≤ k → ctxErr i = none)
    (hread : ∀ i, i < k → ∃ s, a.r.ReadSample i = .ok s)
    (hfail : a.r.ReadSample k = .error e) (hfuel : k < fuel) :
    runBody rt a ctxErr fuel =
      ⟨(runBody rt a ctxErr k).trace ++ [Action.readSample], [],
        .returned (some (.wrapped e "astihearing: reading sample failed"))⟩ := by
  obtain ⟨buf1, _, _, _, hadd⟩ :=
    runBody_prefix rt a ctxErr k hcount (fun i hi => hctx i (Nat.le_of_lt hi)) hread
  obtain ⟨m, rfl⟩ : ∃ m, fuel = k + (m + 1) := ⟨fuel - k - 1, by omega⟩
  rw [hadd (m + 1), runLoop_readFailed a ctxErr _ m k buf1 e (hctx k (Nat.le_refl k)) hfail]
  simp [RunResult.after]

theorem runBody_withStop (rt : Runtime) (a : Ability) (stop : Option Error)
    (ctxErr : Nat → Option Error) (fuel : Nat) :
    runBody rt (a.withStop stop) ctxErr fuel = runBody rt a ctxErr fuel := by
  unfold runBody
  simp only [runLoop_withStop]
  rfl

/-- The outcome and the trace of `Run` do not depend on what `Stop` returns. -/
theorem run_withStop (rt : Runtime) (a : Ability) (stop : Option Error)
    (ctxErr : Nat → Option Error)
    (fuel : Nat) :
    ((a.withStop stop).Run rt ctxErr fuel).outcome = (a.Run rt ctxErr fuel).outcome ∧
      ((a.withStop stop).Run rt ctxErr fuel).trace = (a.Run rt ctxErr fuel).trace := by
  cases hst : a.r.starter with
  | none =>
    have h1 : (a.withStop stop).r.starter = none := by simp [Ability.withStop, hst]
    rw [run_noStarter _ _ _ _ h1, run_noStarter _ _ _ _ hst, runBody_withStop]
    exact ⟨rfl, rfl⟩
  | some v =>
    have h1 : (a.withStop stop).r.starter = some { v with Stop := stop } := by
      simp [Ability.withStop, hst]
    cases hs : v.Start with
    | some e =>
      rw [run_startFailed _ _ _ _ _ e h1 hs, run_startFailed _ _ _ _ _ e hst hs]
      exact ⟨rfl, rfl⟩
    | none =>
      rw [run_started _ _ _ _ _ h1 hs, run_started _ _ _ _ _ hst hs, runBody_withStop]
      unfold deferredStop
      cases runBody rt a ctxErr fuel with
      | mk t l o => cases o <;> simp [RunResult.after]

/-- C4 (amended). For a run that reaches its loop (the dispatch count is a
length `make` accepts, the machine provides the buffers, and `Start` succeeded
if the reader has one): once `ctx.Err()` is non-nil at the top of iteration `k`
(after `k` successful reads), `Run` returns the wrapped context error; its trace
is the trace of the `k` iterations already made followed only by the teardown,
so no read is started and no event is dispatched after the cancellation; `Stop`
is called exactly once when the reader implements `Starter` and not at all when
it does not. -/
theorem run_cancelled_between_reads (rt : Runtime) (a : Ability)
    (ctxErr : Nat → Option Error) (k fuel : Nat)
    (e : Error)
    (hcount : reachesLoop rt a)
    (hstart : ∀ v, a.r.starter = some v → v.Start = none)
    (hctx : ∀ i, i < k → ctxErr i = none)
    (hread : ∀ i, i < k → ∃ s, a.r.ReadSample i = .ok s)
    (hcancel : ctxErr k = some e) (hfuel : k < fuel) :
    (a.Run rt ctxErr fuel).outcome = .returned (some (.wrapped e "astihearing: context error")) ∧
      (∃ buf, (a.Run rt ctxErr k).outcome = .running buf) ∧
      (a.Run rt ctxErr fuel).trace = (a.Run rt ctxErr k).trace ++ teardown a ∧
      (a.Run rt ctxErr fuel).trace.count Action.readSample = k ∧
      (a.Run rt ctxErr fuel).trace.count Action.stop = (if a.r.starter.isSome then 1 else 0) := by
  have hb := runBody_cancelled rt a ctxErr k fuel e hcount hctx hread hcancel hfuel
  obtain ⟨buf1, hrun, hreads, hstops, _⟩ := runBody_prefix rt a ctxErr k hcount hctx hread
  cases hst : a.r.starter with
  | none =>
    rw [run_noStarter _ _ _ _ hst, run_noStarter _ _ _ _ hst, hb]
    refine ⟨rfl, ⟨buf1, hrun⟩, ?_, hreads, ?_⟩
    · simp [teardown, hst]
    · simpa using hstops
  | some v =>
    have hs := hstart v hst
    rw [run_started _ _ _ _ _ hst hs, run_started _ _ _ _ _ hst hs, hb]
    have hk : deferredStop v (runBody rt a ctxErr k) = runBody rt a ctxErr k := by
      unfold deferredStop
      rw [hrun]
    rw [hk]
    refine ⟨rfl, ⟨buf1, by simpa [RunResult.after] using hrun⟩, ?_, ?_, ?_⟩
    · simp [deferredStop, RunResult.after, teardown, hst]
    · simp [deferredStop, RunResult.after, List.count_cons, hreads]
    · simp [deferredStop, RunResult.after, List.count_cons, hstops]

set_option maxRecDepth 100000 in
/-- C4, as stated, fails: a reader without the `Start`/`Stop` lifecycle gets no
`Stop` call when the context is cancelled between the first read and the second one. -/
theorem run_cancelled_plain_reader_no_stop :
    ((NewAbility plainReader smallConfig).SetDispatchFunc.Run linuxAmd64
        (cancelledAfter 1) 5).outcome
        = .returned (some (.wrapped contextCanceled "astihearing: context error")) ∧
      ((NewAbility plainReader smallConfig).SetDispatchFunc.Run linuxAmd64
        (cancelledAfter 1) 5).trace.count Action.stop = 0 := by
  decide

set_option maxRecDepth 100000 in
/-- The cancellation theorem at a reader with the lifecycle, cancelled after three reads. -/
theorem run_cancelled_between_reads_witness :
    ((NewAbility (lifecycleReader none none) smallConfig).Run linuxAmd64 (cancelledAfter 3) 7).outcome
        = .returned (some (.wrapped contextCanceled "astihearing: context error")) ∧
      (∃ buf, ((NewAbility (lifecycleReader none none) smallConfig).Run linuxAmd64
        (cancelledAfter 3) 3).outcome = .running buf) ∧
      ((NewAbility (lifecycleReader none none) smallConfig).Run linuxAmd64 (cancelledAfter 3) 7).trace =
        ((NewAbility (lifecycleReader none none) smallConfig).Run linuxAmd64 (cancelledAfter 3) 3).trace ++
          teardown (NewAbility (lifecycleReader none none) smallConfig) ∧
      ((NewAbility (lifecycleReader none none) smallConfig).Run linuxAmd64
        (cancelledAfter 3) 7).trace.count Action.readSample = 3 ∧
      ((NewAbility (lifecycleReader none none) smallConfig).Run linuxAmd64
        (cancelledAfter 3) 7).trace.count Action.stop =
        (if (NewAbility (lifecycleReader none none) smallConfig).r.starter.isSome then 1 else 0) :=
  run_cancelled_between_reads linuxAmd64 (NewAbility (lifecycleReader none none) smallConfig)
    (cancelledAfter 3) 3 7 contextCanceled (by unfold reachesLoop; decide)
    (fun v hv => by
      have : v = ⟨none, none⟩ := by
        simpa [NewAbility, lifecycleReader, smallConfig, Millisecond] using hv.symm
      rw [this])
    (fun i hi => by simp [cancelledAfter]; omega)
    (fun i _ => ⟨(i : Int) + 1, rfl⟩)
    (by decide) (by decide)

/-- C5. When the `ReadSample` call number `k` fails with `e` (so the run has
reached its loop, the reads before it succeeded and the context was not
cancelled), `Run` returns the error `e` wrapped with "astihearing: reading
sample failed", whose cause is the cause of `e`; the failing call is the last
`ReadSample` call and nothing is dispatched after it: the trace is the trace of
the `k` iterations before, the failing call, and the teardown. Neither the
returned error nor the trace depends on what `Stop` returns. -/
theorem run_read_failure (rt : Runtime) (a : Ability)
    (ctxErr : Nat → Option Error) (k fuel : Nat) (e : Error)
    (hcount : reachesLoop rt a)
    (hstart : ∀ v, a.r.starter = some v → v.Start = none)
    (hctx : ∀ i, i ≤ k → ctxErr i = none)
    (hread : ∀ i, i < k → ∃ s, a.r.ReadSample i = .ok s)
    (hfail : a.r.ReadSample k = .error e) (hfuel : k < fuel) :
    (a.Run rt ctxErr fuel).outcome =
        .returned (some (.wrapped e "astihearing: reading sample failed")) ∧
      (Error.wrapped e "astihearing: reading sample failed").cause = e.cause ∧
      (∃ buf, (a.Run rt ctxErr k).outcome = .running buf) ∧
      (a.Run rt ctxErr fuel).trace = (a.Run rt ctxErr k).trace ++ Action.readSample :: teardown a ∧
      (a.Run rt ctxErr fuel).trace.count Action.readSample = k + 1 ∧
      (∀ stop, ((a.withStop stop).Run rt ctxErr fuel).outcome =
          .returned (some (.wrapped e "astihearing: reading sample failed")) ∧
        ((a.withStop stop).Run rt ctxErr fuel).trace = (a.Run rt ctxErr fuel).trace) := by
  have hb := runBody_readFailed rt a ctxErr k fuel e hcount hctx hread hfail hfuel
  obtain ⟨buf1, hrun, hreads, hstops, _⟩ :=
    runBody_prefix rt a ctxErr k hcount (fun i hi => hctx i (Nat.le_of_lt hi)) hread
  have main : (a.Run rt ctxErr fuel).outcome =
        .returned (some (.wrapped e "astihearing: reading sample failed")) ∧
      (∃ buf, (a.Run rt ctxErr k).outcome = .running buf) ∧
      (a.Run rt ctxErr fuel).trace = (a.Run rt ctxErr k).trace ++ Action.readSample :: teardown a ∧
      (a.Run rt ctxErr fuel).trace.count Action.readSample = k + 1 := by
    cases hst : a.r.starter with
    | none =>
      rw [run_noStarter _ _ _ _ hst, run_noStarter _ _ _ _ hst, hb]
      refine ⟨rfl, ⟨buf1, hrun⟩, ?_, ?_⟩
      · simp [teardown, hst]
      · simp [List.count_append, hreads]
    | some v =>
      have hs := hstart v hst
      rw [run_started _ _ _ _ _ hst hs, run_started _ _ _ _ _ hst hs, hb]
      have hk : deferredStop v (runBody rt a ctxErr k) = runBody rt a ctxErr k := by
        unfold deferredStop
        rw [hrun]
      rw [hk]
      refine ⟨rfl, ⟨buf1, by simpa [RunResult.after] using hrun⟩, ?_, ?_⟩
      · simp [deferredStop, RunResult.after, teardown, hst]
      · simp [deferredStop, RunResult.after, List.count_cons, List.count_append, hreads]
  obtain ⟨h1, h2, h3, h4⟩ := main
  refine ⟨h1, rfl, h2, h3, h4, fun stop => ?_⟩
  obtain ⟨w1, w2⟩ := run_withStop rt a stop ctxErr fuel
  exact ⟨w1.trans h1, w2⟩

set_option maxRecDepth 100000 in
/-- The read-failure theorem at a reader that fails its fourth read and whose
`Stop` fails too. -/
theorem run_read_failure_witness :
    (failingAbility.Run linuxAmd64 background 6).outcome =
        .returned (some (.wrapped (.root "device lost") "astihearing: reading sample failed")) ∧
      (Error.wrapped (.root "device lost") "astihearing: reading sample failed").cause =
        (Error.root "device lost").cause ∧
      (∃ buf, (failingAbility.Run linuxAmd64 background 3).outcome = .running buf) ∧
      (failingAbility.Run linuxAmd64 background 6).trace =
        (failingAbility.Run linuxAmd64 background 3).trace ++ Action.readSample :: teardown failingAbility ∧
      (failingAbility.Run linuxAmd64 background 6).trace.count Action.readSample = 3 + 1 ∧
      (∀ stop, ((failingAbility.withStop stop).Run linuxAmd64 background 6).outcome =
          .returned (some (.wrapped (.root "device lost") "astihearing: reading sample failed")) ∧
        ((failingAbility.withStop stop).Run linuxAmd64 background 6).trace =
          (failingAbility.Run linuxAmd64 background 6).trace) :=
  run_read_failure linuxAmd64 failingAbility background 3 6 (.root "device lost")
    (by unfold reachesLoop; decide)
    (fun v hv => by
      have : v = ⟨none, some (.root "busy")⟩ := by
        simpa [failingAbility, Ability.SetDispatchFunc, NewAbility, failingReader, smallConfig,
          Millisecond] using hv.symm
      rw [this])
    (fun _ _ => rfl)
    (fun i hi => ⟨(i : Int) + 1, by
      have : i ≠ 3 := by omega
      simp [failingAbility, Ability.SetDispatchFunc, NewAbility, failingReader, smallConfig,
        Millisecond, this]⟩)
    rfl (by decide)

/-- C6. For a reader that implements `Starter`, `Start` is the first thing `Run`
does, before any `ReadSample`; and when `Start` fails with `e`, `Run` does
nothing else (no `ReadSample`, no dispatch, no `Stop`) and returns `e` wrapped
with "astihearing: starting reader failed", whose cause is the cause of `e`. -/
theorem run_start_first (rt : Runtime) (a : Ability) (v : Starter)
    (ctxErr : Nat → Option Error) (fuel : Nat)
    (hv : a.r.starter = some v) :
    (∃ rest, (a.Run rt ctxErr fuel).trace = Action.start :: rest) ∧
      (∀ e, v.Start = some e →
        a.Run rt ctxErr fuel =
            ⟨[Action.start], [],
              .returned (some (.wrapped e "astihearing: starting reader failed"))⟩ ∧
          (Error.wrapped e "astihearing: starting reader failed").cause = e.cause ∧
          (a.Run rt ctxErr fuel).trace.count Action.readSample = 0 ∧
          dispatched (a.Run rt ctxErr fuel).trace = []) := by
  constructor
  · cases hs : v.Start with
    | some e => exact ⟨[], by rw [run_startFailed rt a ctxErr fuel v e hv hs]⟩
    | none => exact ⟨_, by rw [run_started rt a ctxErr fuel v hv hs]; rfl⟩
  · intro e hs
    rw [run_startFailed rt a ctxErr fuel v e hv hs]
    exact ⟨rfl, rfl, rfl, rfl⟩

/-- The start theorem at a reader whose `Start` fails. -/
theorem run_start_first_witness :
    (∃ rest, (unstartableAbility.Run linuxAmd64 background 9).trace = Action.start :: rest) ∧
      (∀ e, (Starter.mk (some (.root "no device")) none).Start = some e →
        unstartableAbility.Run linuxAmd64 background 9 =
            ⟨[Action.start], [],
              .returned (some (.wrapped e "astihearing: starting reader failed"))⟩ ∧
          (Error.wrapped e "astihearing: starting reader failed").cause = e.cause ∧
          (unstartableAbility.Run linuxAmd64 background 9).trace.count Action.readSample = 0 ∧
          dispatched (unstartableAbility.Run linuxAmd64 background 9).trace = []) :=
  run_start_first linuxAmd64 unstartableAbility ⟨some (.root "no device"), none⟩ background 9 (by
    simp [unstartableAbility, Ability.SetDispatchFunc, NewAbility, lifecycleReader, smallConfig,
      Millisecond])

theorem dispatched_replicate_readSample (k : Nat) :
    dispatched (List.replicate k Action.readSample) = [] := by
  induction k with
  | zero => rfl
  | succ k ih => simpa [List.replicate_succ, dispatched] using ih

/-- The first iteration of the body: the buffer allocated with `n` zero entries
is full as soon as one sample is appended, so the first read dispatches `n + 1`
samples. -/
theorem runBody_first_iteration (rt : Runtime) (a : Ability)
    (ctxErr : Nat → Option Error) (fuel : Nat)
    (s : Int) (hcount : reachesLoop rt a) (hd : a.dispatchFunc = true)
    (hc : ctxErr 0 = none) (hr : a.r.ReadSample 0 = .ok s) :
    runBody rt a ctxErr (fuel + 1) =
      (runLoop a ctxErr (dispatchCount rt a.c) fuel 1 []).after
        [Action.readSample,
          Action.dispatch (samplesEvent a (List.replicate (dispatchCount rt a.c).toNat 0 ++ [s]))] := by
  rw [runBody_eq rt a ctxErr (fuel + 1) hcount, runLoop_full a ctxErr _ fuel 0 _ s hc hr]
  · simp [hd]
  · simp only [List.length_append, List.length_replicate, List.length_singleton]
    push_cast
    omega

/-- The first `n` iterations of the body for a dispatch count `n ≥ 1`: one event
of `n + 1` samples at the first read, then `n - 1` reads that only fill the buffer. -/
theorem runBody_first_chunk (rt : Runtime) (a : Ability) (ctxErr : Nat → Option Error) (n : Nat)
    (s : Int) (hreach : reachesLoop rt a)
    (hn : dispatchCount rt a.c = ((n + 1 : Nat) : Int)) (hd : a.dispatchFunc = true)
    (hctx : ∀ i, i < n + 1 → ctxErr i = none)
    (hr0 : a.r.ReadSample 0 = .ok s)
    (hread : ∀ i, i < n + 1 → ∃ s, a.r.ReadSample i = .ok s) :
    ∃ buf, runBody rt a ctxErr (n + 1) =
        ⟨Action.readSample ::
            Action.dispatch (samplesEvent a (List.replicate (n + 1) 0 ++ [s])) ::
            List.replicate n Action.readSample, [], .running buf⟩ ∧
      buf.length = n := by
  obtain ⟨buf, hq, hlen⟩ := runLoop_quiet a ctxErr (dispatchCount rt a.c) n 1 []
    (fun j hj => hctx (1 + j) (by omega)) (fun j hj => hread (1 + j) (by omega))
    (by rw [hn]; simp)
  refine ⟨buf, ?_, by simpa using hlen⟩
  rw [runBody_first_iteration rt a ctxErr n s hreach hd (hctx 0 (Nat.succ_pos _)) hr0, hq, hn]
  simp [RunResult.after]

/-- From an empty buffer, `m + 1` iterations with a dispatch count of `m + 1`
read `m + 1` samples, dispatch them as one event at the last read, and leave the
buffer empty. -/
theorem runLoop_chunk_from_empty (a : Ability) (ctxErr : Nat → Option Error) (m i : Nat)
    (hd : a.dispatchFunc = true)
    (hctx : ∀ j, j < m + 1 → ctxErr (i + j) = none)
    (hread : ∀ j, j < m + 1 → ∃ s, a.r.ReadSample (i + j) = .ok s) :
    ∃ e, runLoop a ctxErr ((m + 1 : Nat) : Int) (m + 1) i [] =
        ⟨List.replicate m Action.readSample ++ [Action.readSample, Action.dispatch e], [],
          .running []⟩ ∧
      e.Payload.Samples.length = m + 1 := by
  obtain ⟨buf1, hq, hlen⟩ := runLoop_quiet a ctxErr ((m + 1 : Nat) : Int) m i []
    (fun j hj => hctx j (by omega)) (fun j hj => hread j (by omega)) (by simp)
  obtain ⟨s, hs⟩ := hread m (Nat.lt_succ_self m)
  have hfull : ((m + 1 : Nat) : Int) ≤ ((buf1 ++ [s]).length : Int) := by
    simp only [List.length_append, List.length_singleton, hlen, List.length_nil]
    omega
  refine ⟨samplesEvent a (buf1 ++ [s]), ?_, ?_⟩
  · rw [runLoop_add a ctxErr _ m 1 i [] buf1 (by rw [hq]), hq,
      runLoop_full a ctxErr _ 0 (i + m) buf1 s (hctx m (Nat.lt_succ_self m)) hs hfull]
    simp [RunResult.after, runLoop, hd]
  · simp [samplesEvent, hlen]

theorem dispatched_append (t u : List Action) :
    dispatched (t ++ u) = dispatched t ++ dispatched u := by
  induction t with
  | nil => rfl
  | cons x t ih => cases x <;> simp [dispatched, ih]

theorem two_chunks_dispatched (e1 e2 : Event) (m : Nat) :
    dispatched ([Action.readSample, Action.dispatch e1] ++
      (List.replicate m Action.readSample ++ [Action.readSample, Action.dispatch e2])) =
      [e1, e2] := by
  simp [dispatched, dispatched_append, dispatched_replicate_readSample]

/-- The trace of the first chunk: `n + 1` reads and one event of `n + 2` samples. -/
theorem first_chunk_trace (e : Event) (n : Nat) :
    (Action.readSample :: Action.dispatch e :: List.replicate n Action.readSample).count
        Action.readSample = n + 1 ∧
      dispatched (Action.readSample :: Action.dispatch e :: List.replicate n Action.readSample)
        = [e] := by
  constructor
  · rw [List.count_cons_self, List.count_cons_of_ne (by simp), List.count_replicate_self]
  · simp [dispatched, dispatched_replicate_readSample]

theorem samplesEvent_length (a : Ability) (n : Nat) (s : Int) :
    (samplesEvent a (List.replicate n 0 ++ [s])).Payload.Samples.length = n + 1 := by
  simp only [samplesEvent, List.length_append, List.length_replicate, List.length_singleton]

set_option maxRecDepth 100000 in
theorem hearingAbility_dispatchCount : dispatchCount linuxAmd64 hearingAbility.c = 8000 := by
  decide

theorem hearingAbility_reachesLoop : reachesLoop linuxAmd64 hearingAbility := by
  unfold reachesLoop
  rw [hearingAbility_dispatchCount]
  decide

/-- C1 at the scenario (rate 16000, period 500ms, chunk size 8000): the first
samples event `Run` dispatches, at its very first read, carries 8001 samples
(the 8000 zero entries of the freshly allocated buffer and the sample read, 1)
instead of 8000. The next event, dispatched 8000 reads later, carries 8000. -/
theorem run_first_event_has_one_sample_too_many :
    dispatchCount linuxAmd64 hearingAbility.c = 8000 ∧
      (∃ e, (hearingAbility.Run linuxAmd64 background 1).trace = [Action.readSample, Action.dispatch e] ∧
        e.Payload.Samples = List.replicate 8000 0 ++ [1] ∧
        e.Payload.Samples.length = 8001) ∧
      (∃ e1 e2, dispatched (hearingAbility.Run linuxAmd64 background 8001).trace = [e1, e2] ∧
        e1.Payload.Samples.length = 8001 ∧ e2.Payload.Samples.length = 8000) := by
  have h0 := hearingAbility_reachesLoop
  refine ⟨hearingAbility_dispatchCount, ?_, ?_⟩
  · have h := runBody_first_iteration linuxAmd64 hearingAbility background 0 1 h0 rfl rfl rfl
    rw [hearingAbility_dispatchCount] at h
    refine ⟨samplesEvent hearingAbility (List.replicate 8000 0 ++ [1]), ?_, rfl,
      samplesEvent_length hearingAbility 8000 1⟩
    rw [run_noStarter linuxAmd64 hearingAbility background 1 rfl, h]
    rfl
  · have h := runBody_first_iteration linuxAmd64 hearingAbility background (7999 + 1) 1 h0 rfl rfl rfl
    rw [hearingAbility_dispatchCount] at h
    obtain ⟨e2, h2, hlen⟩ := runLoop_chunk_from_empty hearingAbility background 7999 1 rfl
      (fun _ _ => rfl) (fun j _ => ⟨((1 + j : Nat) : Int) + 1, rfl⟩)
    have hrun : hearingAbility.Run linuxAmd64 background 8001 =
        runBody linuxAmd64 hearingAbility background (7999 + 1 + 1) :=
      run_noStarter linuxAmd64 hearingAbility background 8001 rfl
    refine ⟨samplesEvent hearingAbility (List.replicate 8000 0 ++ [1]), e2, ?_,
      samplesEvent_length hearingAbility 8000 1, hlen⟩
    rw [hrun, h]
    have h2' : runLoop hearingAbility background 8000 (7999 + 1) 1 [] =
        ⟨List.replicate 7999 Action.readSample ++ [Action.readSample, Action.dispatch e2], [],
          .running []⟩ := h2
    rw [h2']
    exact two_chunks_dispatched _ e2 7999

/-- C2 at the scenario (rate 16000, period 500ms, chunk size 8000): after 8000
successive successful reads `Run` has dispatched one samples event, but that
event has 8001 entries and the buffer holds 7999 samples instead of being empty. -/
theorem run_after_8000_reads :
    dispatchCount linuxAmd64 hearingAbility.c = 8000 ∧
      ∃ e buf, (hearingAbility.Run linuxAmd64 background 8000).trace.count Action.readSample = 8000 ∧
        dispatched (hearingAbility.Run linuxAmd64 background 8000).trace = [e] ∧
        e.Payload.Samples.length = 8001 ∧
        (hearingAbility.Run linuxAmd64 background 8000).outcome = .running buf ∧
        buf.length = 7999 := by
  refine ⟨hearingAbility_dispatchCount, ?_⟩
  obtain ⟨buf, h, hlen⟩ := runBody_first_chunk linuxAmd64 hearingAbility background 7999 1
    hearingAbility_reachesLoop hearingAbility_dispatchCount rfl (fun _ _ => rfl) rfl (fun i _ => ⟨(i : Int) + 1, rfl⟩)
  have hrun : hearingAbility.Run linuxAmd64 background 8000 = runBody linuxAmd64 hearingAbility background (7999 + 1) :=
    run_noStarter linuxAmd64 hearingAbility background 8000 rfl
  obtain ⟨t1, t2⟩ :=
    first_chunk_trace (samplesEvent hearingAbility (List.replicate (7999 + 1) 0 ++ [1])) 7999
  refine ⟨samplesEvent hearingAbility (List.replicate (7999 + 1) 0 ++ [1]), buf, ?_, ?_,
    samplesEvent_length hearingAbility (7999 + 1) 1, ?_, hlen⟩
  · rw [hrun, h]; exact t1
  · rw [hrun, h]; exact t2
  · rw [hrun, h]

/-! ## `handleWebsocketAbilityToggle` -/

theorem handler_undecodable (s : ClientsServer) (eventName payload : String) (x : Error)
    (hu : s.unmarshal payload = .error x) :
    handleWebsocketAbilityToggle s eventName payload = ⟨[], 1, none⟩ := by
  simp [handleWebsocketAbilityToggle, hu]

theorem handler_unknown_brain (s : ClientsServer) (eventName payload : String) (e : EventAbility)
    (hu : s.unmarshal payload = .ok e) (hb : s.brain e.BrainName = none) :
    handleWebsocketAbilityToggle s eventName payload = ⟨[], 1, none⟩ := by
  simp [handleWebsocketAbilityToggle, hu, hb]

theorem handler_unknown_ability (s : ClientsServer) (eventName payload : String)
    (e : EventAbility) (b : Brain)
    (hu : s.unmarshal payload = .ok e) (hb : s.brain e.BrainName = some b)
    (ha : b.ability e.Name = false) :
    handleWebsocketAbilityToggle s eventName payload = ⟨[], 1, none⟩ := by
  simp [handleWebsocketAbilityToggle, hu, hb, ha]

theorem handler_forwards (s : ClientsServer) (eventName payload : String)
    (e : EventAbility) (b : Brain)
    (hu : s.unmarshal payload = .ok e) (hb : s.brain e.BrainName = some b)
    (ha : b.ability e.Name = true) :
    (handleWebsocketAbilityToggle s eventName payload).writes =
        [⟨b.ws,
          if eventName = "ability.start" then s.WebsocketEventNameAbilityStart
          else s.WebsocketEventNameAbilityStop,
          e.Name⟩] ∧
      (handleWebsocketAbilityToggle s eventName payload).err = none := by
  simp only [handleWebsocketAbilityToggle, hu, hb, ha, Bool.not_true, Bool.false_eq_true,
    if_false, dispatchWsEventToClient, clientsWebsocketEventNameAbilityStart]
  cases s.write b.ws _ e.Name <;> simp

/-- C8. The handler never returns an error. It writes to a websocket client
exactly when the payload decodes, the brain it names is in the registry and the
ability it names is found on that brain; it then makes exactly one `Write`, on
that brain's client, of the brain-side start event when the incoming event name
is "ability.start" and of the brain-side stop event otherwise, with the ability
name as payload. For an unknown brain or an unknown ability nothing is written. -/
theorem handleWebsocketAbilityToggle_routes (s : ClientsServer) (eventName payload : String) :
    (handleWebsocketAbilityToggle s eventName payload).err = none ∧
      ((handleWebsocketAbilityToggle s eventName payload).writes ≠ [] ↔
        ∃ e b, s.unmarshal payload = .ok e ∧ s.brain e.BrainName = some b ∧
          b.ability e.Name = true) ∧
      (∀ e b, s.unmarshal payload = .ok e → s.brain e.BrainName = some b →
        b.ability e.Name = true →
        (handleWebsocketAbilityToggle s eventName payload).writes =
          [⟨b.ws,
            if eventName = "ability.start" then s.WebsocketEventNameAbilityStart
            else s.WebsocketEventNameAbilityStop,
            e.Name⟩]) ∧
      (∀ e, s.unmarshal payload = .ok e → s.brain e.BrainName = none →
        (handleWebsocketAbilityToggle s eventName payload).writes = []) ∧
      (∀ e b, s.unmarshal payload = .ok e → s.brain e.BrainName = some b →
        b.ability e.Name = false →
        (handleWebsocketAbilityToggle s eventName payload).writes = []) := by
  refine ⟨?_, ?_, ?_, ?_, ?_⟩
  · cases hu : s.unmarshal payload with
    | error x => rw [handler_undecodable s eventName payload x hu]
    | ok e =>
      cases hb : s.brain e.BrainName with
      | none => rw [handler_unknown_brain s eventName payload e hu hb]
      | some b =>
        cases ha : b.ability e.Name with
        | false => rw [handler_unknown_ability s eventName payload e b hu hb ha]
        | true => exact (handler_forwards s eventName payload e b hu hb ha).2
  · constructor
    · intro hw
      cases hu : s.unmarshal payload with
      | error x => rw [handler_undecodable s eventName payload x hu] at hw; exact absurd rfl hw
      | ok e =>
        cases hb : s.brain e.BrainName with
        | none => rw [handler_unknown_brain s eventName payload e hu hb] at hw; exact absurd rfl hw
        | some b =>
          cases ha : b.ability e.Name with
          | false =>
            rw [handler_unknown_ability s eventName payload e b hu hb ha] at hw
            exact absurd rfl hw
          | true => exact ⟨e, b, rfl, hb, ha⟩
    · rintro ⟨e, b, hu, hb, ha⟩
      rw [(handler_forwards s eventName payload e b hu hb ha).1]
      exact List.cons_ne_nil _ _
  · intro e b hu hb ha
    exact (handler_forwards s eventName payload e b hu hb ha).1
  · intro e hu hb
    rw [handler_unknown_brain s eventName payload e hu hb]
  · intro e b hu hb ha
    rw [handler_unknown_ability s eventName payload e b hu hb ha]

/-- The routing theorem at a known brain and ability: a stop command is
forwarded as one brain-side stop event. -/
theorem handleWebsocketAbilityToggle_routes_witness :
    (handleWebsocketAbilityToggle exampleServer "ability.stop" "p1").writes =
      [⟨7, "ability.stop", "Hearing"⟩] :=
  (handleWebsocketAbilityToggle_routes exampleServer "ability.stop" "p1").2.2.1
    ⟨"Hearing Brain", "Hearing"⟩ ⟨"Hearing Brain", 7, fun ab => ab == "Hearing"⟩
    rfl (by simp [exampleServer]) (by decide)

/-! ## `Bob.Run` -/

theorem bobRun_ctxDone (w : BobWorld) (ce : Error) (h : w.ctxErr = some ce) :
    BobRun w .ctxDone = some none := by
  by_cases hcc : ce = contextCanceled <;> simp [BobRun, h, hcc, errorsWrap]

theorem bobRun_chanDoneBrains (w : BobWorld) (e : Error) (h : w.brainsRun = some (some e)) :
    BobRun w .chanDoneBrains = some (some (.wrapped e "astibob: running servers failed")) := by
  simp [BobRun, h, serverGoroutine, errorsWrap]

theorem bobRun_chanDoneClients (w : BobWorld) (e : Error) (h : w.clientsRun = some (some e)) :
    BobRun w .chanDoneClients = some (some (.wrapped e "astibob: running servers failed")) := by
  simp [BobRun, h, serverGoroutine, errorsWrap]

/-- The returns of `Bob.Run`: whenever it returns, the error is non-nil exactly
when the `select` took a `chanDone` case, and it is then a server error wrapped. -/
theorem bobRun_returns (w : BobWorld) (choice : SelectCase) (ret : Option Error)
    (h : BobRun w choice = some ret) :
    (ret ≠ none ↔ choice = .chanDoneBrains ∨ choice = .chanDoneClients) ∧
      (choice = .chanDoneBrains → ∃ e, w.brainsRun = some (some e) ∧
        ret = some (.wrapped e "astibob: running servers failed") ∧
        (Error.wrapped e "astibob: running servers failed").cause = e.cause) ∧
      (choice = .chanDoneClients → ∃ e, w.clientsRun = some (some e) ∧
        ret = some (.wrapped e "astibob: running servers failed") ∧
        (Error.wrapped e "astibob: running servers failed").cause = e.cause) ∧
      (choice = .ctxDone → w.ctxErr ≠ none ∧ ret = none) := by
  cases choice with
  | ctxDone =>
    cases hc : w.ctxErr with
    | none => simp [BobRun, hc] at h
    | some ce =>
      have hret : ret = none := by
        rw [bobRun_ctxDone w ce hc] at h
        exact (Option.some.inj h).symm
      simp [hret]
  | chanDoneBrains =>
    rcases hb : w.brainsRun with _ | _ | e
    · simp [BobRun, hb, serverGoroutine] at h
    · simp [BobRun, hb, serverGoroutine] at h
    · have hret : ret = some (.wrapped e "astibob: running servers failed") := by
        rw [bobRun_chanDoneBrains w e hb] at h
        exact (Option.some.inj h).symm
      simp [hret, Error.cause]
  | chanDoneClients =>
    rcases hb : w.clientsRun with _ | _ | e
    · simp [BobRun, hb, serverGoroutine] at h
    · simp [BobRun, hb, serverGoroutine] at h
    · have hret : ret = some (.wrapped e "astibob: running servers failed") := by
        rw [bobRun_chanDoneClients w e hb] at h
        exact (Option.some.inj h).symm
      simp [hret, Error.cause]

/-- C9. When a server's `run` has returned an error `e`, the `chanDone` case of
the `select` is ready and `Bob.Run` returns through it the non-nil error `e`
wrapped with "astibob: running servers failed", of the same cause; when the
context is done, the context case is ready and `Bob.Run` returns nil through it,
whatever the context error. A case is ready only then: a server that is still
running or has returned nil sends nothing. Hence, whenever `Bob.Run` returns,
its error is non-nil exactly when it stopped on a server error. -/
theorem bobRun_error_iff_server_failed (w : BobWorld) :
    (∀ e, w.brainsRun = some (some e) →
        BobRun w .chanDoneBrains =
            some (some (.wrapped e "astibob: running servers failed")) ∧
          (Error.wrapped e "astibob: running servers failed").cause = e.cause) ∧
      (∀ e, w.clientsRun = some (some e) →
        BobRun w .chanDoneClients =
            some (some (.wrapped e "astibob: running servers failed")) ∧
          (Error.wrapped e "astibob: running servers failed").cause = e.cause) ∧
      (∀ ce, w.ctxErr = some ce → BobRun w .ctxDone = some none) ∧
      ((∀ e, w.brainsRun ≠ some (some e)) → BobRun w .chanDoneBrains = none) ∧
      ((∀ e, w.clientsRun ≠ some (some e)) → BobRun w .chanDoneClients = none) ∧
      (w.ctxErr = none → BobRun w .ctxDone = none) ∧
      (∀ choice ret, BobRun w choice = some ret →
        (ret ≠ none ↔ choice = .chanDoneBrains ∨ choice = .chanDoneClients) ∧
        (choice = .chanDoneBrains → ∃ e, w.brainsRun = some (some e) ∧
          ret = some (.wrapped e "astibob: running servers failed") ∧
          (Error.wrapped e "astibob: running servers failed").cause = e.cause) ∧
        (choice = .chanDoneClients → ∃ e, w.clientsRun = some (some e) ∧
          ret = some (.wrapped e "astibob: running servers failed") ∧
          (Error.wrapped e "astibob: running servers failed").cause = e.cause) ∧
        (choice = .ctxDone → w.ctxErr ≠ none ∧ ret = none)) := by
  refine ⟨fun e h => ⟨bobRun_chanDoneBrains w e h, rfl⟩,
    fun e h => ⟨bobRun_chanDoneClients w e h, rfl⟩,
    fun ce h => bobRun_ctxDone w ce h, ?_, ?_, ?_,
    fun choice ret h => bobRun_returns w choice ret h⟩
  · intro h
    rcases hb : w.brainsRun with _ | _ | e
    · simp [BobRun, hb, serverGoroutine]
    · simp [BobRun, hb, serverGoroutine]
    · exact absurd hb (h e)
  · intro h
    rcases hb : w.clientsRun with _ | _ | e
    · simp [BobRun, hb, serverGoroutine]
    · simp [BobRun, hb, serverGoroutine]
    · exact absurd hb (h e)
  · intro h
    simp [BobRun, h]

/-- The run theorem in a world where the brains server has failed, the clients
server has returned nil and the context is cancelled: the brains case returns the
wrapped server error, the context case returns nil, the clients case is not ready. -/
theorem bobRun_error_iff_server_failed_witness :
    BobRun failedBrainsWorld .chanDoneBrains =
        some (some (.wrapped (.root "listen failed") "astibob: running servers failed")) ∧
      BobRun failedBrainsWorld .ctxDone = some none ∧
      BobRun failedBrainsWorld .chanDoneClients = none :=
  have h := bobRun_error_iff_server_failed failedBrainsWorld
  ⟨(h.1 (.root "listen failed") rfl).1, h.2.2.1 contextCanceled rfl,
    h.2.2.2.2.1 (fun e he => by simp [failedBrainsWorld] at he)⟩

/-! ## `key` -/

theorem splitBy_loop_done (R : Char → Char → Bool) (l : List Char) (a : Char) (g : List Char)
    (gs : List (List Char)) :
    List.splitBy.loop R l a g gs = gs.reverse ++ List.splitBy.loop R l a g [] := by
  induction l generalizing a g gs with
  | nil => simp [List.splitBy.loop]
  | cons b l ih =>
    cases hR : R a b with
    | true =>
      have e1 : List.splitBy.loop R (b :: l) a g gs = List.splitBy.loop R l b (a :: g) gs := by
        simp [List.splitBy.loop, hR]
      have e2 : List.splitBy.loop R (b :: l) a g [] = List.splitBy.loop R l b (a :: g) [] := by
        simp [List.splitBy.loop, hR]
      rw [e1, e2, ih]
    | false =>
      have e1 : List.splitBy.loop R (b :: l) a g gs =
          List.splitBy.loop R l b [] ((a :: g).reverse :: gs) := by
        simp [List.splitBy.loop, hR]
      have e2 : List.splitBy.loop R (b :: l) a g [] =
          List.splitBy.loop R l b [] [(a :: g).reverse] := by
        simp [List.splitBy.loop, hR]
      rw [e1, e2, ih b [] ((a :: g).reverse :: gs), ih b [] [(a :: g).reverse]]
      simp

theorem collapseRun_word (a : Char) (g : List Char) (ha : isWordChar a = true) :
    collapseRun ((a :: g).reverse) = g.reverse ++ [a] := by
  unfold collapseRun
  rw [if_neg]
  · simp
  · simp [List.all_eq_true, ha]

theorem collapseRun_nonWord (a : Char) (g : List Char) (ha : isWordChar a = false)
    (hg : ∀ x ∈ g, isWordChar x = isWordChar a) :
    collapseRun ((a :: g).reverse) = ['-'] := by
  unfold collapseRun
  rw [if_pos]
  simp only [List.all_eq_true, List.mem_reverse, List.mem_cons]
  rintro x (rfl | hx)
  · simp [ha]
  · simp [hg x hx, ha]

/-- The runs produced from a run in progress `g ++ [a]` and the rest `l`,
collapsed and joined, are what the scanner produces. -/
theorem collapse_splitBy_loop (l : List Char) (a : Char) (g : List Char)
    (hg : ∀ x ∈ g, isWordChar x = isWordChar a) :
    ((List.splitBy.loop (fun a b => isWordChar a == isWordChar b) l a g []).map
        collapseRun).flatten =
      if isWordChar a then g.reverse ++ a :: regexpKeyReplaceAll ['-'] false l
      else '-' :: regexpKeyReplaceAll ['-'] true l := by
  induction l generalizing a g with
  | nil =>
    cases ha : isWordChar a with
    | true =>
      simp only [List.splitBy.loop, List.reverse_cons, List.reverse_nil, List.nil_append,
        List.map_cons, List.map_nil, List.flatten_cons, List.flatten_nil, List.append_nil]
      rw [← List.reverse_cons, collapseRun_word a g ha]
      simp [regexpKeyReplaceAll]
    | false =>
      simp only [List.splitBy.loop, List.reverse_cons, List.reverse_nil, List.nil_append,
        List.map_cons, List.map_nil, List.flatten_cons, List.flatten_nil, List.append_nil]
      rw [← List.reverse_cons, collapseRun_nonWord a g ha hg]
      simp [regexpKeyReplaceAll]
  | cons b l ih =>
    by_cases hab : isWordChar a = isWordChar b
    · have e : List.splitBy.loop (fun a b => isWordChar a == isWordChar b) (b :: l) a g [] =
          List.splitBy.loop (fun a b => isWordChar a == isWordChar b) l b (a :: g) [] := by
        simp [List.splitBy.loop, hab]
      have hg1 : ∀ x ∈ a :: g, isWordChar x = isWordChar b := by
        intro x hx
        rcases List.mem_cons.1 hx with rfl | hx
        · exact hab
        · rw [hg x hx, hab]
      rw [e, ih b (a :: g) hg1]
      cases hb : isWordChar b with
      | true => simp [hab, hb, regexpKeyReplaceAll]
      | false => simp [hab, hb, regexpKeyReplaceAll]
    · have e : List.splitBy.loop (fun a b => isWordChar a == isWordChar b) (b :: l) a g [] =
          [(a :: g).reverse] ++
            List.splitBy.loop (fun a b => isWordChar a == isWordChar b) l b [] [] := by
        have e0 : List.splitBy.loop (fun a b => isWordChar a == isWordChar b) (b :: l) a g [] =
            List.splitBy.loop (fun a b => isWordChar a == isWordChar b) l b []
              [(a :: g).reverse] := by
          have hf : (isWordChar a == isWordChar b) = false := by simpa using hab
          simp [List.splitBy.loop, hf]
        rw [e0, splitBy_loop_done]
        rfl
      rw [e, List.map_append, List.flatten_append, ih b [] (by simp)]
      cases ha : isWordChar a with
      | true =>
        have hb : isWordChar b = false := by
          cases hb : isWordChar b with
          | true => exact absurd (ha.trans hb.symm) hab
          | false => rfl
        rw [List.map_singleton, List.flatten_singleton, collapseRun_word a g ha]
        simp [hb, regexpKeyReplaceAll]
      | false =>
        have hb : isWordChar b = true := by
          cases hb : isWordChar b with
          | true => rfl
          | false => exact absurd (ha.trans hb.symm) hab
        rw [List.map_singleton, List.flatten_singleton, collapseRun_nonWord a g ha hg]
        simp [hb, regexpKeyReplaceAll]

/-- The scanner computes the specification's key. -/
theorem key_eq_keySpec (toLower : Char → Char) (name : List Char) :
    key toLower name = keySpec toLower name := by
  unfold key keySpec maximalRuns stringsToLower
  cases List.map toLower name with
  | nil => rfl
  | cons c l =>
    rw [List.splitBy, collapse_splitBy_loop l c [] (by simp)]
    cases hc : isWordChar c with
    | true => simp [regexpKeyReplaceAll, hc]
    | false => simp [regexpKeyReplaceAll, hc]

theorem regexpKeyReplaceAll_word (repl : List Char) (f : Bool) (c : Char) (t : List Char)
    (hc : isWordChar c = true) :
    regexpKeyReplaceAll repl f (c :: t) = c :: regexpKeyReplaceAll repl false t := by
  rw [regexpKeyReplaceAll, if_pos hc]

theorem regexpKeyReplaceAll_skip (repl : List Char) (c : Char) (t : List Char)
    (hc : isWordChar c = false) :
    regexpKeyReplaceAll repl true (c :: t) = regexpKeyReplaceAll repl true t := by
  rw [regexpKeyReplaceAll, if_neg (by simp [hc]), if_pos rfl]

theorem regexpKeyReplaceAll_match (repl : List Char) (c : Char) (t : List Char)
    (hc : isWordChar c = false) :
    regexpKeyReplaceAll repl false (c :: t) = repl ++ regexpKeyReplaceAll repl true t := by
  rw [regexpKeyReplaceAll, if_neg (by simp [hc]), if_neg (by simp)]

/-- What the scanner does after a common beginning depends only on what it
does on the remainders. -/
theorem regexpKeyReplaceAll_append_congr (repl xs u v : List Char)
    (h : ∀ f, regexpKeyReplaceAll repl f u = regexpKeyReplaceAll repl f v) (f : Bool) :
    regexpKeyReplaceAll repl f (xs ++ u) = regexpKeyReplaceAll repl f (xs ++ v) := by
  induction xs generalizing f with
  | nil => exact h f
  | cons c xs ih =>
    rw [List.cons_append, List.cons_append]
    cases hc : isWordChar c with
    | true => rw [regexpKeyReplaceAll_word _ _ _ _ hc, regexpKeyReplaceAll_word _ _ _ _ hc, ih]
    | false =>
      cases f with
      | true => rw [regexpKeyReplaceAll_skip _ _ _ hc, regexpKeyReplaceAll_skip _ _ _ hc, ih]
      | false => rw [regexpKeyReplaceAll_match _ _ _ hc, regexpKeyReplaceAll_match _ _ _ hc, ih]

/-- A non-empty run of non-word characters in front of `ys` yields one
replacement (none when a match is already being skipped), whatever the run. -/
theorem regexpKeyReplaceAll_run (repl r ys : List Char) (hne : r ≠ [])
    (hr : ∀ c ∈ r, isWordChar c = false) (f : Bool) :
    regexpKeyReplaceAll repl f (r ++ ys) =
      (if f then [] else repl) ++ regexpKeyReplaceAll repl true ys := by
  induction r generalizing f with
  | nil => exact absurd rfl hne
  | cons c r ih =>
    have hc : isWordChar c = false := hr c (List.mem_cons_self _ _)
    have step : regexpKeyReplaceAll repl true (r ++ ys) = regexpKeyReplaceAll repl true ys := by
      cases r with
      | nil => rfl
      | cons d r =>
        have := ih (List.cons_ne_nil _ _) (fun x hx => hr x (List.mem_cons_of_mem _ hx)) true
        simpa using this
    rw [List.cons_append]
    cases f with
    | true => rw [regexpKeyReplaceAll_skip _ _ _ hc, step]; simp
    | false => rw [regexpKeyReplaceAll_match _ _ _ hc, step]; simp

/-- The scanner leaves its own output alone: it contains no two adjacent
separators and does not start with one when produced while skipping a match. -/
theorem regexpKeyReplaceAll_idem (s : List Char) :
    regexpKeyReplaceAll ['-'] false (regexpKeyReplaceAll ['-'] false s) =
        regexpKeyReplaceAll ['-'] false s ∧
      regexpKeyReplaceAll ['-'] true (regexpKeyReplaceAll ['-'] true s) =
        regexpKeyReplaceAll ['-'] true s ∧
      regexpKeyReplaceAll ['-'] false (regexpKeyReplaceAll ['-'] true s) =
        regexpKeyReplaceAll ['-'] true s := by
  have hsep : isWordChar '-' = false := by decide
  induction s with
  | nil => simp [regexpKeyReplaceAll]
  | cons c t ih =>
    obtain ⟨h1, h2, h3⟩ := ih
    cases hc : isWordChar c with
    | true => simp [regexpKeyReplaceAll, hc, h1]
    | false => simp [regexpKeyReplaceAll, hc, hsep, h2, h3]

/-- Lower-casing the output of the scanner on a lower-cased name changes nothing. -/
theorem map_toLower_regexpKeyReplaceAll (toLower : Char → Char) (hsep : toLower '-' = '-')
    (hfix : ∀ c, isWordChar (toLower c) = true → toLower (toLower c) = toLower c)
    (name : List Char) (f : Bool) :
    (regexpKeyReplaceAll ['-'] f (name.map toLower)).map toLower =
      regexpKeyReplaceAll ['-'] f (name.map toLower) := by
  induction name generalizing f with
  | nil => simp [regexpKeyReplaceAll]
  | cons c t ih =>
    cases hc : isWordChar (toLower c) with
    | true => simp [regexpKeyReplaceAll, hc, hfix c hc, ih]
    | false => cases f <;> simp [regexpKeyReplaceAll, hc, hsep, ih]

theorem toLower_hearing_brain (toLower : Char → Char)
    (hascii : ∀ c : Char, c.toNat < 128 → toLower c = c.toLower) :
    "Hearing Brain".toList.map toLower = "hearing brain".toList := by
  have h : "Hearing Brain".toList.map toLower = "Hearing Brain".toList.map Char.toLower := by
    apply List.map_congr_left
    intro c hc
    apply hascii
    revert c
    decide
  rw [h]
  decide

theorem char_toLower_of_not_word (c : Char) (h : isWordChar c = false) : c.toLower = c := by
  simp only [Char.toLower]
  rw [if_neg]
  rintro ⟨h1, h2⟩
  have hA : 'A' ≤ c := by
    show 'A'.val ≤ c.val
    rw [UInt32.le_def]
    exact h1
  have hZ : c ≤ 'Z' := by
    show c.val ≤ 'Z'.val
    rw [UInt32.le_def]
    exact h2
  simp [isWordChar, hA, hZ] at h

/-- Two names that differ only in the non-empty run of separators standing at
some place have the same key; a separator is a character that is not a word
character once lower-cased. -/
theorem key_separator_run (toLower : Char → Char) (xs ys r1 r2 : List Char)
    (h1 : r1 ≠ []) (h2 : r2 ≠ [])
    (hr1 : ∀ c ∈ r1, isWordChar (toLower c) = false)
    (hr2 : ∀ c ∈ r2, isWordChar (toLower c) = false) :
    key toLower (xs ++ r1 ++ ys) = key toLower (xs ++ r2 ++ ys) := by
  unfold key stringsToLower
  simp only [List.map_append, List.append_assoc]
  apply regexpKeyReplaceAll_append_congr
  intro f
  rw [regexpKeyReplaceAll_run ['-'] (r1.map toLower) _ (by simpa using h1)
      (by simpa using hr1) f,
    regexpKeyReplaceAll_run ['-'] (r2.map toLower) _ (by simpa using h2)
      (by simpa using hr2) f]

/-- C7, as stated, fails: the KELVIN SIGN is not a word character, yet it is
lower-cased to the word character `k`, so the names `a`, KELVIN SIGN, `b` and
`a b`, which differ only in the non-word character between `a` and `b`, have
the keys "akb" and "a-b". -/
theorem key_kelvin_sign_is_no_separator :
    isWordChar kelvinSign = false ∧ isWordChar ' ' = false ∧
      key kelvinToLower (['a'] ++ [kelvinSign] ++ ['b']) = "akb".toList ∧
      key kelvinToLower (['a'] ++ [' '] ++ ['b']) = "a-b".toList ∧
      key kelvinToLower (['a'] ++ [kelvinSign] ++ ['b']) ≠
        key kelvinToLower (['a'] ++ [' '] ++ ['b']) := by
  decide

theorem kelvinToLower_ascii (c : Char) (hc : c.toNat < 128) : kelvinToLower c = c.toLower := by
  unfold kelvinToLower
  rw [if_neg]
  intro h
  rw [h] at hc
  revert hc
  decide

/-- C7 (amended). The key of a name is its lower-cased form in which every
maximal run of non-word characters (outside `[0-9A-Za-z_]`) is replaced by one
`-`: the function `key` computes `keySpec`. With a `toLower` that lower-cases
ASCII letters, `key "Hearing Brain" = "hearing-brain"`. Two names with the same
lower-cased form have the same key, and so do two names that differ only in the
non-empty run of separators standing at some place, a separator being a
character that is still a non-word character once lower-cased, as every ASCII
non-word character is. -/
theorem key_collapses_nonword_runs (toLower : Char → Char)
    (hascii : ∀ c : Char, c.toNat < 128 → toLower c = c.toLower) :
    (∀ name, key toLower name = keySpec toLower name) ∧
      key toLower "Hearing Brain".toList = "hearing-brain".toList ∧
      (∀ n1 n2 : List Char, n1.map toLower = n2.map toLower →
        key toLower n1 = key toLower n2) ∧
      (∀ xs ys r1 r2 : List Char, r1 ≠ [] → r2 ≠ [] →
        (∀ c ∈ r1, c.toNat < 128 ∧ isWordChar c = false) →
        (∀ c ∈ r2, c.toNat < 128 ∧ isWordChar c = false) →
        key toLower (xs ++ r1 ++ ys) = key toLower (xs ++ r2 ++ ys)) ∧
      (∀ xs ys r1 r2 : List Char, r1 ≠ [] → r2 ≠ [] →
        (∀ c ∈ r1, isWordChar (toLower c) = false) →
        (∀ c ∈ r2, isWordChar (toLower c) = false) →
        key toLower (xs ++ r1 ++ ys) = key toLower (xs ++ r2 ++ ys)) := by
  have hsep : ∀ c : Char, c.toNat < 128 ∧ isWordChar c = false →
      isWordChar (toLower c) = false := by
    rintro c ⟨hc, hw⟩
    rw [hascii c hc, char_toLower_of_not_word c hw]
    exact hw
  refine ⟨key_eq_keySpec toLower, ?_, ?_, ?_, ?_⟩
  · unfold key stringsToLower
    rw [toLower_hearing_brain toLower hascii]
    decide
  · intro n1 n2 h
    unfold key stringsToLower
    rw [h]
  · intro xs ys r1 r2 h1 h2 hr1 hr2
    exact key_separator_run toLower xs ys r1 r2 h1 h2 (fun c hc => hsep c (hr1 c hc))
      (fun c hc => hsep c (hr2 c hc))
  · intro xs ys r1 r2 h1 h2 hr1 hr2
    exact key_separator_run toLower xs ys r1 r2 h1 h2 hr1 hr2

/-- The key theorem for a lower-casing that knows the KELVIN SIGN: "Hearing
Brain", "HEARING BRAIN" and "hearing...brain" all have the key "hearing-brain". -/
theorem key_collapses_nonword_runs_witness :
    key kelvinToLower "Hearing Brain".toList = "hearing-brain".toList ∧
      key kelvinToLower "HEARING BRAIN".toList = key kelvinToLower "Hearing Brain".toList ∧
      key kelvinToLower ("hearing".toList ++ "...".toList ++ "brain".toList) =
        key kelvinToLower ("hearing".toList ++ " ".toList ++ "brain".toList) :=
  have h := key_collapses_nonword_runs kelvinToLower kelvinToLower_ascii
  ⟨h.2.1, h.2.2.1 _ _ (by decide),
    h.2.2.2.1 "hearing".toList "brain".toList "...".toList " ".toList (by decide) (by decide)
      (by decide) (by decide)⟩

/-- C10. The function `key` is idempotent, for every lower-casing that keeps
the separator `-` and is stable on the word characters it produces (as
`unicode.ToLower` is): the key of a key is that key. -/
theorem key_idempotent (toLower : Char → Char) (hsep : toLower '-' = '-')
    (hfix : ∀ c, isWordChar (toLower c) = true → toLower (toLower c) = toLower c)
    (name : List Char) :
    key toLower (key toLower name) = key toLower name := by
  unfold key stringsToLower
  rw [map_toLower_regexpKeyReplaceAll toLower hsep hfix name false]
  exact (regexpKeyReplaceAll_idem (name.map toLower)).1

theorem char_toLower_toLower (c : Char) : c.toLower.toLower = c.toLower := by
  by_cases h : c.toNat ≥ 65 ∧ c.toNat ≤ 90
  · have e : c.toLower = Char.ofNat (c.toNat + 32) := by
      simp only [Char.toLower]
      rw [if_pos h]
    rw [e]
    obtain ⟨h1, h2⟩ := h
    generalize c.toNat = n at h1 h2
    interval_cases n <;> decide
  · have e : c.toLower = c := by
      simp only [Char.toLower]
      rw [if_neg h]
    rw [e, e]

/-- The idempotence theorem at the name "Hearing  Brain!" with the ASCII
lower-casing. -/
theorem key_idempotent_witness :
    key Char.toLower (key Char.toLower "Hearing  Brain!".toList) =
      key Char.toLower "Hearing  Brain!".toList :=
  key_idempotent Char.toLower (by decide) (fun c _ => char_toLower_toLower c)
    "Hearing  Brain!".toList

/-! ## The dispatch count -/

theorem ilog2Aux_spec (fuel n : Nat) (h : n ≤ fuel) (hn : 0 < n) :
    2 ^ ilog2Aux fuel n ≤ n ∧ n < 2 ^ (ilog2Aux fuel n + 1) := by
  induction fuel generalizing n with
  | zero => omega
  | succ fuel ih =>
    unfold ilog2Aux
    by_cases h2 : n < 2
    · rw [if_pos h2]
      simp
      omega
    · rw [if_neg h2]
      obtain ⟨a, b⟩ := ih (n / 2) (by omega) (by omega)
      rw [pow_succ, pow_succ] at *
      constructor <;> omega

theorem ilog2_spec (n : Nat) (hn : 0 < n) : 2 ^ ilog2 n ≤ n ∧ n < 2 ^ (ilog2 n + 1) :=
  ilog2Aux_spec n n (Nat.le_refl n) hn

theorem ilog2_unique (n k : Nat) (h1 : 2 ^ k ≤ n) (h2 : n < 2 ^ (k + 1)) : ilog2 n = k := by
  have hn : 0 < n := Nat.lt_of_lt_of_le (Nat.two_pow_pos _) h1
  obtain ⟨a, b⟩ := ilog2_spec n hn
  have c1 : ilog2 n < k + 1 := (Nat.pow_lt_pow_iff_right (by norm_num : 1 < 2)).1 (Nat.lt_of_le_of_lt a h2)
  have c2 : k < ilog2 n + 1 := (Nat.pow_lt_pow_iff_right (by norm_num : 1 < 2)).1 (Nat.lt_of_le_of_lt h1 b)
  omega

theorem ilog2_mul_pow (N a : Nat) (hN : 0 < N) : ilog2 (N * 2 ^ a) = ilog2 N + a := by
  obtain ⟨h1, h2⟩ := ilog2_spec N hN
  apply ilog2_unique
  · rw [pow_add]; exact Nat.mul_le_mul_right _ h1
  · rw [show ilog2 N + a + 1 = (ilog2 N + 1) + a by omega, pow_add]
    exact Nat.mul_lt_mul_of_pos_right h2 (Nat.two_pow_pos _)

theorem ilog2_pow (b : Nat) : ilog2 (2 ^ b) = b :=
  ilog2_unique _ b (Nat.le_refl _) (Nat.pow_lt_pow_right (by norm_num) (Nat.lt_succ_self b))

theorem ilog2_le_52 (N : Nat) (hN : 0 < N) (h53 : N < 2 ^ 53) : ilog2 N ≤ 52 := by
  have := (ilog2_spec N hN).1
  have c : ilog2 N < 53 :=
    (Nat.pow_lt_pow_iff_right (by norm_num : 1 < 2)).1 (Nat.lt_of_le_of_lt this h53)
  omega

/-- A number `N * 2^a / 2^b` with `N` of at most 53 bits is representable: it
is rounded to itself. -/
theorem roundPos_exact (N a b : Nat) (hN : 0 < N) (h53 : N < 2 ^ 53) :
    roundPos (N * 2 ^ a) (2 ^ b) =
      (N * 2 ^ (52 - ilog2 N), (ilog2 N : Int) + a - b - 52) := by
  have hL := ilog2_le_52 N hN h53
  obtain ⟨hlo, hhi⟩ := ilog2_spec N hN
  unfold roundPos
  simp only [ilog2_mul_pow N a hN, ilog2_pow]
  generalize ilog2 N = L at hL hlo hhi ⊢
  have hcond : 2 ^ b * 2 ^ (((L + a : Nat) : Int) - (b : Int)).toNat ≤
      N * 2 ^ a * 2 ^ (-(((L + a : Nat) : Int) - (b : Int))).toNat := by
    rcases Nat.lt_or_ge (L + a) b with h | h
    · have e1 : (((L + a : Nat) : Int) - (b : Int)).toNat = 0 := by omega
      have e2 : (-(((L + a : Nat) : Int) - (b : Int))).toNat = b - (L + a) := by omega
      rw [e1, e2, pow_zero, Nat.mul_one]
      calc 2 ^ b = 2 ^ L * 2 ^ a * 2 ^ (b - (L + a)) := by
            rw [← pow_add, ← pow_add]; congr 1; omega
        _ ≤ N * 2 ^ a * 2 ^ (b - (L + a)) :=
            Nat.mul_le_mul_right _ (Nat.mul_le_mul_right _ hlo)
    · have e1 : (((L + a : Nat) : Int) - (b : Int)).toNat = L + a - b := by omega
      have e2 : (-(((L + a : Nat) : Int) - (b : Int))).toNat = 0 := by omega
      rw [e1, e2, pow_zero, Nat.mul_one]
      calc 2 ^ b * 2 ^ (L + a - b) = 2 ^ L * 2 ^ a := by
            rw [← pow_add, ← pow_add]; congr 1; omega
        _ ≤ N * 2 ^ a := Nat.mul_le_mul_right _ hlo
  simp only [if_pos hcond]
  have key : ∃ den, 0 < den ∧
      2 ^ b * 2 ^ (-(52 - (((L + a : Nat) : Int) - (b : Int)))).toNat = den ∧
      N * 2 ^ a * 2 ^ (52 - (((L + a : Nat) : Int) - (b : Int))).toNat =
        N * 2 ^ (52 - L) * den := by
    rcases Nat.lt_or_ge (52 + b) (L + a) with h | h
    · have e1 : (52 - (((L + a : Nat) : Int) - (b : Int))).toNat = 0 := by omega
      have e2 : (-(52 - (((L + a : Nat) : Int) - (b : Int)))).toNat = L + a - (52 + b) := by
        omega
      refine ⟨2 ^ b * 2 ^ (L + a - (52 + b)), Nat.mul_pos (Nat.two_pow_pos _) (Nat.two_pow_pos _),
        by rw [e2], ?_⟩
      rw [e1, pow_zero, Nat.mul_one, Nat.mul_assoc, ← pow_add, ← pow_add]
      congr 2
      omega
    · have e1 : (52 - (((L + a : Nat) : Int) - (b : Int))).toNat = 52 + b - (L + a) := by omega
      have e2 : (-(52 - (((L + a : Nat) : Int) - (b : Int)))).toNat = 0 := by omega
      refine ⟨2 ^ b, Nat.two_pow_pos _, by rw [e2, pow_zero, Nat.mul_one], ?_⟩
      rw [e1, Nat.mul_assoc, Nat.mul_assoc, ← pow_add, ← pow_add]
      congr 2
      omega
  obtain ⟨den, hden, hd, hnum⟩ := key
  rw [hd, hnum, Nat.mul_mod_left, Nat.mul_div_cancel _ hden]
  have hnot : ¬ (den < 2 * 0 ∨ 2 * 0 = den ∧ N * 2 ^ (52 - L) % 2 = 1) := by omega
  rw [if_neg hnot]
  congr 1
  push_cast
  omega

theorem natAbs_mul_two_pow (z : Int) (a : Nat) : (z * 2 ^ a).natAbs = z.natAbs * 2 ^ a := by
  rw [Int.natAbs_mul, Int.natAbs_pow]
  rfl

/-- Rounding `z * 2^a / 2^b` for a non-zero `z` of at most 53 bits is exact. -/
theorem roundRat_exact (z : Int) (a b : Nat) (hz : z ≠ 0) (h53 : z.natAbs < 2 ^ 53) :
    roundRat (z * 2 ^ a) (2 ^ b) =
      ⟨z * 2 ^ (52 - ilog2 z.natAbs), (ilog2 z.natAbs : Int) + a - b - 52⟩ := by
  have hpos : (0 : Int) < 2 ^ a := by positivity
  have hne : z * 2 ^ a ≠ 0 := Int.mul_ne_zero hz (ne_of_gt hpos)
  unfold roundRat
  rw [if_neg hne, natAbs_mul_two_pow,
    roundPos_exact z.natAbs a b (Int.natAbs_pos.2 hz) h53]
  have hcast : ((z.natAbs * 2 ^ (52 - ilog2 z.natAbs) : Nat) : Int) =
      (z.natAbs : Int) * 2 ^ (52 - ilog2 z.natAbs) := by
    simp only [Nat.cast_mul, Nat.cast_pow, Nat.cast_ofNat]
  by_cases hneg : z < 0
  · have h1 : z * 2 ^ a < 0 := Int.mul_neg_of_neg_of_pos hneg hpos
    have hz1 : (z.natAbs : Int) = -z := by omega
    simp only [if_pos h1]
    rw [hcast, hz1, Int.neg_mul, Int.neg_neg]
  · have h1 : ¬ z * 2 ^ a < 0 := by
      have : 0 ≤ z * 2 ^ a := Int.mul_nonneg (by omega) (le_of_lt hpos)
      omega
    have hz1 : (z.natAbs : Int) = z := by omega
    simp only [if_neg h1]
    rw [hcast, hz1]

theorem ofInt_zero : F64.ofInt 0 = ⟨0, 0⟩ := by decide

theorem ofInt_exact (z : Int) (hz : z ≠ 0) (h53 : z.natAbs < 2 ^ 53) :
    F64.ofInt z = F64.dyadic z 0 := by
  have h := roundRat_exact z 0 0 hz h53
  have hL := ilog2_le_52 z.natAbs (Int.natAbs_pos.2 hz) h53
  simp only [pow_zero, Int.mul_one] at h
  unfold F64.ofInt F64.dyadic
  rw [h]
  congr 1
  push_cast
  omega

theorem mul_zero_left (x : F64) : F64.mul ⟨0, 0⟩ x = ⟨0, 0⟩ := by
  simp [F64.mul, roundRat]

/-- The product of two representable dyadic numbers whose product has at most
53 bits is exact. -/
theorem mul_dyadic (z1 z2 : Int) (j1 j2 : Nat) (h1 : z1 ≠ 0) (h2 : z2 ≠ 0)
    (h53 : (z1 * z2).natAbs < 2 ^ 53) :
    F64.mul (F64.dyadic z1 j1) (F64.dyadic z2 j2) = F64.dyadic (z1 * z2) (j1 + j2) := by
  have hz : z1 * z2 ≠ 0 := Int.mul_ne_zero h1 h2
  have hL := ilog2_le_52 (z1 * z2).natAbs (Int.natAbs_pos.2 hz) h53
  unfold F64.mul F64.dyadic
  simp only
  generalize 52 - ilog2 z1.natAbs = k1
  generalize 52 - ilog2 z2.natAbs = k2
  have e1 : (-((k1 + j1 : Nat) : Int) + -((k2 + j2 : Nat) : Int)).toNat = 0 := by omega
  have e2 : (-(-((k1 + j1 : Nat) : Int) + -((k2 + j2 : Nat) : Int))).toNat =
      k1 + j1 + (k2 + j2) := by omega
  rw [e1, e2, pow_zero, Int.mul_one,
    show z1 * 2 ^ k1 * (z2 * 2 ^ k2) = z1 * z2 * 2 ^ (k1 + k2) by rw [pow_add]; ring,
    roundRat_exact (z1 * z2) (k1 + k2) (k1 + j1 + (k2 + j2)) hz h53]
  congr 1
  push_cast
  omega

theorem floor_dyadic (z : Int) (j : Nat) : F64.floor (F64.dyadic z j) = z / 2 ^ j := by
  unfold F64.floor F64.dyadic
  simp only
  generalize 52 - ilog2 z.natAbs = k
  by_cases h : 0 ≤ -(((k + j : Nat)) : Int)
  · have hk : k = 0 := by omega
    have hj : j = 0 := by omega
    subst hk hj
    simp
  · rw [if_neg h]
    have e : (- -(((k + j : Nat)) : Int)).toNat = j + k := by omega
    rw [e, pow_add]
    have hk : (0 : Int) < 2 ^ k := by positivity
    exact Int.mul_ediv_mul_of_pos_left z (2 ^ j) hk

theorem two_zpow_split (x : Int) :
    (2 : ℚ) ^ x = (2 : ℚ) ^ x.toNat / (2 : ℚ) ^ (-x).toNat := by
  by_cases h : 0 ≤ x
  · obtain ⟨k, rfl⟩ := Int.eq_ofNat_of_zero_le h
    have e2 : (-(k : Int)).toNat = 0 := by omega
    rw [e2]
    simp
  · obtain ⟨k, hk⟩ : ∃ k : Nat, x = -(k : Int) := ⟨(-x).toNat, by omega⟩
    subst hk
    have e1 : (-(k : Int)).toNat = 0 := by omega
    rw [e1]
    simp

/-- The exponent chosen by `roundPos` is the binade of `p / q`. -/
theorem roundPos_binade (p q : Nat) (hp : 0 < p) (hq : 0 < q) :
    let e0 : Int := (ilog2 p : Int) - (ilog2 q : Int)
    let e : Int := if q * 2 ^ e0.toNat ≤ p * 2 ^ (-e0).toNat then e0 else e0 - 1
    (2 : ℚ) ^ e ≤ (p : ℚ) / q ∧ (p : ℚ) / q < (2 : ℚ) ^ (e + 1) := by
  intro e0 e
  obtain ⟨hp1, hp2⟩ := ilog2_spec p hp
  obtain ⟨hq1, hq2⟩ := ilog2_spec q hq
  have hqQ : (0 : ℚ) < q := by exact_mod_cast hq
  have hp1Q : (2 : ℚ) ^ (ilog2 p : Int) ≤ p := by
    rw [zpow_natCast]; exact_mod_cast hp1
  have hp2Q : (p : ℚ) < (2 : ℚ) ^ ((ilog2 p : Int) + 1) := by
    have : (p : ℚ) < (2 : ℚ) ^ (ilog2 p + 1) := by exact_mod_cast hp2
    rwa [← zpow_natCast, Nat.cast_add, Nat.cast_one] at this
  have hq1Q : (2 : ℚ) ^ (ilog2 q : Int) ≤ q := by
    rw [zpow_natCast]; exact_mod_cast hq1
  have hq2Q : (q : ℚ) < (2 : ℚ) ^ ((ilog2 q : Int) + 1) := by
    have : (q : ℚ) < (2 : ℚ) ^ (ilog2 q + 1) := by exact_mod_cast hq2
    rwa [← zpow_natCast, Nat.cast_add, Nat.cast_one] at this
  have h2 : (0 : ℚ) < 2 := by norm_num
  have hlow : (2 : ℚ) ^ (e0 - 1) ≤ (p : ℚ) / q := by
    rw [le_div_iff₀ hqQ]
    calc (2 : ℚ) ^ (e0 - 1) * q ≤ (2 : ℚ) ^ (e0 - 1) * (2 : ℚ) ^ ((ilog2 q : Int) + 1) :=
          mul_le_mul_of_nonneg_left (le_of_lt hq2Q) (le_of_lt (zpow_pos h2 _))
      _ = (2 : ℚ) ^ (ilog2 p : Int) := by
          rw [← zpow_add₀ (by norm_num)]; congr 1; omega
      _ ≤ p := hp1Q
  have hhigh : (p : ℚ) / q < (2 : ℚ) ^ (e0 + 1) := by
    rw [div_lt_iff₀ hqQ]
    calc (p : ℚ) < (2 : ℚ) ^ ((ilog2 p : Int) + 1) := hp2Q
      _ = (2 : ℚ) ^ (e0 + 1) * (2 : ℚ) ^ (ilog2 q : Int) := by
          rw [← zpow_add₀ (by norm_num)]; congr 1; omega
      _ ≤ (2 : ℚ) ^ (e0 + 1) * q :=
          mul_le_mul_of_nonneg_left hq1Q (le_of_lt (zpow_pos h2 _))
  have hcond : (q * 2 ^ e0.toNat ≤ p * 2 ^ (-e0).toNat) ↔ (2 : ℚ) ^ e0 ≤ (p : ℚ) / q := by
    rw [two_zpow_split e0, le_div_iff₀ hqQ, div_mul_eq_mul_div,
      div_le_iff₀ (pow_pos h2 _)]
    constructor
    · intro h
      have : ((q * 2 ^ e0.toNat : Nat) : ℚ) ≤ ((p * 2 ^ (-e0).toNat : Nat) : ℚ) := by
        exact_mod_cast h
      push_cast at this
      linarith
    · intro h
      have : ((q * 2 ^ e0.toNat : Nat) : ℚ) ≤ ((p * 2 ^ (-e0).toNat : Nat) : ℚ) := by
        push_cast
        linarith
      exact_mod_cast this
  by_cases hc : q * 2 ^ e0.toNat ≤ p * 2 ^ (-e0).toNat
  · have he : e = e0 := if_pos hc
    rw [he]
    exact ⟨hcond.1 hc, hhigh⟩
  · have he : e = e0 - 1 := if_neg hc
    rw [he]
    refine ⟨hlow, ?_⟩
    have : ¬ (2 : ℚ) ^ e0 ≤ (p : ℚ) / q := fun h => hc (hcond.2 h)
    rw [show e0 - 1 + 1 = e0 by omega]
    exact lt_of_not_le this


/-- The last step of `roundPos`: the quotient `num / den` is replaced by a
neighbouring integer at distance at most one half. -/
theorem round_quotient (num den : Nat) (hden : 0 < den) :
    |(num : ℚ) / den -
        ((if den < 2 * (num % den) ∨ (2 * (num % den) = den ∧ num / den % 2 = 1)
          then num / den + 1 else num / den : Nat) : ℚ)| ≤ 1 / 2 := by
  have hdQ : (0 : ℚ) < den := by exact_mod_cast hden
  have hsplit : (num : ℚ) = (den : ℚ) * (num / den : Nat) + (num % den : Nat) := by
    exact_mod_cast (Nat.div_add_mod num den).symm
  have hr : num % den < den := Nat.mod_lt _ hden
  have hrQ : ((num % den : Nat) : ℚ) < den := by exact_mod_cast hr
  have hr0 : (0 : ℚ) ≤ ((num % den : Nat) : ℚ) := Nat.cast_nonneg _
  have hq : (num : ℚ) / den = (num / den : Nat) + ((num % den : Nat) : ℚ) / den := by
    rw [hsplit]
    field_simp
    ring
  by_cases hc : den < 2 * (num % den) ∨ (2 * (num % den) = den ∧ num / den % 2 = 1)
  · rw [if_pos hc, hq]
    have h2 : (den : ℚ) ≤ 2 * ((num % den : Nat) : ℚ) := by
      rcases hc with h | ⟨h, _⟩
      · exact_mod_cast Nat.le_of_lt h
      · exact_mod_cast Nat.le_of_eq h.symm
    have hfrac : (1 : ℚ) / 2 ≤ ((num % den : Nat) : ℚ) / den := by
      rw [le_div_iff₀ hdQ]; linarith
    have hfrac1 : ((num % den : Nat) : ℚ) / den < 1 := by
      rw [div_lt_iff₀ hdQ]; linarith
    push_cast
    rw [abs_le]
    constructor <;> linarith
  · rw [if_neg hc, hq]
    have h2 : 2 * ((num % den : Nat) : ℚ) ≤ den := by
      have : 2 * (num % den) ≤ den := by omega
      exact_mod_cast this
    have hfrac : ((num % den : Nat) : ℚ) / den ≤ 1 / 2 := by
      rw [div_le_iff₀ hdQ]; linarith
    have hfrac0 : (0 : ℚ) ≤ ((num % den : Nat) : ℚ) / den := div_nonneg hr0 (le_of_lt hdQ)
    rw [abs_le]
    constructor <;> linarith

/-- The function `roundPos` rounds correctly: the mantissa has 53 bits (or is
`2^53`, after rounding up from the largest 53-bit mantissa), and the value
represented is at most half a unit in the last place away from `p / q`. -/
theorem roundPos_nearest (p q : Nat) (hp : 0 < p) (hq : 0 < q) :
    2 ^ 52 ≤ (roundPos p q).1 ∧ (roundPos p q).1 ≤ 2 ^ 53 ∧
      |(p : ℚ) / q - ((roundPos p q).1 : ℚ) * (2 : ℚ) ^ (roundPos p q).2| ≤
        (2 : ℚ) ^ (roundPos p q).2 / 2 := by
  have hb := roundPos_binade p q hp hq
  simp only at hb
  generalize hE : (if q * 2 ^ ((ilog2 p : Int) - (ilog2 q : Int)).toNat ≤
      p * 2 ^ (-((ilog2 p : Int) - (ilog2 q : Int))).toNat
      then (ilog2 p : Int) - (ilog2 q : Int) else (ilog2 p : Int) - (ilog2 q : Int) - 1) = e at hb
  obtain ⟨hlo, hhi⟩ := hb
  have h2 : (0 : ℚ) < 2 := by norm_num
  have hqQ : (0 : ℚ) < q := by exact_mod_cast hq
  -- the scaled quotient
  have hden : 0 < q * 2 ^ (-(52 - e)).toNat := Nat.mul_pos hq (Nat.two_pow_pos _)
  have hdQ : (0 : ℚ) < ((q * 2 ^ (-(52 - e)).toNat : Nat) : ℚ) := by exact_mod_cast hden
  have hscaled : ((p * 2 ^ (52 - e).toNat : Nat) : ℚ) / ((q * 2 ^ (-(52 - e)).toNat : Nat) : ℚ)
      = (p : ℚ) / q * (2 : ℚ) ^ (52 - e) := by
    rw [two_zpow_split (52 - e)]
    push_cast
    field_simp
  have hs_lo : (2 : ℚ) ^ (52 : Nat) ≤
      ((p * 2 ^ (52 - e).toNat : Nat) : ℚ) / ((q * 2 ^ (-(52 - e)).toNat : Nat) : ℚ) := by
    rw [hscaled]
    calc (2 : ℚ) ^ (52 : Nat) = (2 : ℚ) ^ e * (2 : ℚ) ^ (52 - e) := by
          rw [← zpow_add₀ (by norm_num), ← zpow_natCast]; congr 1; omega
      _ ≤ (p : ℚ) / q * (2 : ℚ) ^ (52 - e) :=
          mul_le_mul_of_nonneg_right hlo (le_of_lt (zpow_pos h2 _))
  have hs_hi : ((p * 2 ^ (52 - e).toNat : Nat) : ℚ) / ((q * 2 ^ (-(52 - e)).toNat : Nat) : ℚ)
      < (2 : ℚ) ^ (53 : Nat) := by
    rw [hscaled]
    calc (p : ℚ) / q * (2 : ℚ) ^ (52 - e) < (2 : ℚ) ^ (e + 1) * (2 : ℚ) ^ (52 - e) :=
          mul_lt_mul_of_pos_right hhi (zpow_pos h2 _)
      _ = (2 : ℚ) ^ (53 : Nat) := by
          rw [← zpow_add₀ (by norm_num), ← zpow_natCast]; congr 1; omega
  have hm_lo : 2 ^ 52 ≤ p * 2 ^ (52 - e).toNat / (q * 2 ^ (-(52 - e)).toNat) := by
    rw [Nat.le_div_iff_mul_le hden]
    rw [le_div_iff₀ hdQ] at hs_lo
    exact_mod_cast hs_lo
  have hm_hi : p * 2 ^ (52 - e).toNat / (q * 2 ^ (-(52 - e)).toNat) < 2 ^ 53 := by
    rw [Nat.div_lt_iff_lt_mul hden]
    rw [div_lt_iff₀ hdQ] at hs_hi
    exact_mod_cast hs_hi
  have hq2 := round_quotient (p * 2 ^ (52 - e).toNat) (q * 2 ^ (-(52 - e)).toNat) hden
  unfold roundPos
  simp only [hE]
  split
  · rename_i hc
    rw [if_pos hc] at hq2
    refine ⟨by omega, by omega, ?_⟩
    simp only
    rw [hscaled] at hq2
    have hpos : (0 : ℚ) < (2 : ℚ) ^ (-(52 - e)) := zpow_pos h2 _
    have hinv : (2 : ℚ) ^ (52 - e) * (2 : ℚ) ^ (-(52 - e)) = 1 := by
      rw [← zpow_add₀ (by norm_num)]; simp
    have key : (p : ℚ) / q - ((p * 2 ^ (52 - e).toNat / (q * 2 ^ (-(52 - e)).toNat) + 1 : Nat) : ℚ)
          * (2 : ℚ) ^ (-(52 - e)) =
        ((p : ℚ) / q * (2 : ℚ) ^ (52 - e) -
          ((p * 2 ^ (52 - e).toNat / (q * 2 ^ (-(52 - e)).toNat) + 1 : Nat) : ℚ))
          * (2 : ℚ) ^ (-(52 - e)) := by
      rw [sub_mul, mul_assoc, hinv, mul_one]
    rw [key, abs_mul, abs_of_pos hpos]
    calc _ ≤ 1 / 2 * (2 : ℚ) ^ (-(52 - e)) := mul_le_mul_of_nonneg_right hq2 (le_of_lt hpos)
      _ = (2 : ℚ) ^ (-(52 - e)) / 2 := by ring
  · rename_i hc
    rw [if_neg hc] at hq2
    refine ⟨by omega, by omega, ?_⟩
    simp only
    rw [hscaled] at hq2
    have hpos : (0 : ℚ) < (2 : ℚ) ^ (-(52 - e)) := zpow_pos h2 _
    have hinv : (2 : ℚ) ^ (52 - e) * (2 : ℚ) ^ (-(52 - e)) = 1 := by
      rw [← zpow_add₀ (by norm_num)]; simp
    have key : (p : ℚ) / q - ((p * 2 ^ (52 - e).toNat / (q * 2 ^ (-(52 - e)).toNat) : Nat) : ℚ)
          * (2 : ℚ) ^ (-(52 - e)) =
        ((p : ℚ) / q * (2 : ℚ) ^ (52 - e) -
          ((p * 2 ^ (52 - e).toNat / (q * 2 ^ (-(52 - e)).toNat) : Nat) : ℚ))
          * (2 : ℚ) ^ (-(52 - e)) := by
      rw [sub_mul, mul_assoc, hinv, mul_one]
    rw [key, abs_mul, abs_of_pos hpos]
    calc _ ≤ 1 / 2 * (2 : ℚ) ^ (-(52 - e)) := mul_le_mul_of_nonneg_right hq2 (le_of_lt hpos)
      _ = (2 : ℚ) ^ (-(52 - e)) / 2 := by ring

/-- The model's `floor` is the floor of the value represented. -/
theorem floor_eq_floor_toRat (x : F64) : F64.floor x = ⌊x.toRat⌋ := by
  unfold F64.floor F64.toRat
  by_cases h : 0 ≤ x.e
  · rw [if_pos h]
    obtain ⟨k, hk⟩ := Int.eq_ofNat_of_zero_le h
    rw [hk]
    simp only [Int.toNat_ofNat, zpow_natCast]
    have : ((x.m : ℚ) * 2 ^ k) = ((x.m * 2 ^ k : Int) : ℚ) := by push_cast; rfl
    rw [this, Int.floor_intCast]
  · rw [if_neg h]
    obtain ⟨k, hk⟩ : ∃ k : Nat, x.e = -(k : Int) := ⟨(-x.e).toNat, by omega⟩
    rw [hk]
    simp only [Int.neg_neg, Int.toNat_ofNat, zpow_neg, zpow_natCast]
    have : ((x.m : ℚ) * ((2 : ℚ) ^ k)⁻¹) = (x.m : ℚ) / ((2 ^ k : Nat) : ℚ) := by
      push_cast
      rfl
    rw [this, Rat.floor_intCast_div_natCast]
    push_cast
    rfl

/-- The value of `F64.dyadic z j` is `z / 2^j`. -/
theorem toRat_dyadic (z : Int) (j : Nat) : (F64.dyadic z j).toRat = (z : ℚ) / 2 ^ j := by
  unfold F64.dyadic F64.toRat
  simp only
  generalize 52 - ilog2 z.natAbs = k
  push_cast
  rw [neg_add, zpow_add₀ (by norm_num), zpow_neg, zpow_neg, zpow_natCast, zpow_natCast]
  field_simp
  ring

/-- Rounding changes a value by a factor close to one. -/
theorem roundRat_rel (n : Int) (d : Nat) (hd : 0 < d) :
    ∃ θ : ℚ, 1 - 1 / 2 ^ 53 ≤ θ ∧ θ ≤ 1 + 1 / 2 ^ 52 ∧
      (roundRat n d).toRat = (n : ℚ) / d * θ := by
  by_cases hn : n = 0
  · refine ⟨1, by norm_num, by norm_num, ?_⟩
    simp [roundRat, hn, F64.toRat]
  · have hp : 0 < n.natAbs := Int.natAbs_pos.2 hn
    obtain ⟨hm, _, hnear⟩ := roundPos_nearest n.natAbs d hp hd
    have hdQ : (0 : ℚ) < d := by exact_mod_cast hd
    have hpQ : (0 : ℚ) < (n.natAbs : ℚ) := by exact_mod_cast hp
    have hv : (0 : ℚ) < (n.natAbs : ℚ) / d := div_pos hpQ hdQ
    have hpow : (0 : ℚ) < (2 : ℚ) ^ (roundPos n.natAbs d).2 := zpow_pos (by norm_num) _
    have hmQ : (2 : ℚ) ^ 52 ≤ ((roundPos n.natAbs d).1 : ℚ) := by exact_mod_cast hm
    generalize hmm : ((roundPos n.natAbs d).1 : ℚ) = m at hnear hmQ
    generalize hww : (2 : ℚ) ^ (roundPos n.natAbs d).2 = w at hnear hpow
    generalize hvv : (n.natAbs : ℚ) / d = v at hnear hv
    obtain ⟨h1, h2⟩ := abs_le.1 hnear
    have hf : (2 : ℚ) ^ 52 * w ≤ m * w := mul_le_mul_of_nonneg_right hmQ (le_of_lt hpow)
    have hfpos : 0 < m * w := lt_of_lt_of_le (by positivity) hf
    -- `v` and the rounded value `m * w` are within a factor `1 ± 2^-53`
    have hlo : m * w * (1 - 1 / 2 ^ 53) ≤ v := by nlinarith
    have hhi : v ≤ m * w * (1 + 1 / 2 ^ 53) := by nlinarith
    have key : 1 - 1 / 2 ^ 53 ≤ m * w / v ∧ m * w / v ≤ 1 + 1 / 2 ^ 52 := by
      constructor
      · rw [le_div_iff₀ hv]
        nlinarith
      · rw [div_le_iff₀ hv]
        nlinarith
    refine ⟨m * w / v, key.1, key.2, ?_⟩
    have hvne : v ≠ 0 := ne_of_gt hv
    have hcancel : v * (m * w / v) = m * w := by field_simp
    unfold roundRat
    rw [if_neg hn]
    by_cases hneg : n < 0
    · have hnQ : (n : ℚ) / d = -v := by
        have : (n : ℚ) = -(n.natAbs : ℚ) := by
          have hq : (n : ℚ) < 0 := by exact_mod_cast hneg
          rw [Nat.cast_natAbs, Int.cast_abs, abs_of_neg hq, neg_neg]
        rw [this, neg_div, hvv]
      simp only [if_pos hneg, F64.toRat]
      rw [hnQ]
      push_cast
      rw [hmm, hww]
      linarith
    · have hnQ : (n : ℚ) / d = v := by
        have : (n : ℚ) = (n.natAbs : ℚ) := by
          have hq : (0 : ℚ) ≤ n := by exact_mod_cast (not_lt.1 hneg)
          rw [Nat.cast_natAbs, Int.cast_abs, abs_of_nonneg hq]
        rw [this, hvv]
      simp only [if_neg hneg, F64.toRat]
      rw [hnQ]
      push_cast
      rw [hmm, hww]
      linarith


theorem ofInt_rel (n : Int) :
    ∃ θ : ℚ, 1 - 1 / 2 ^ 53 ≤ θ ∧ θ ≤ 1 + 1 / 2 ^ 52 ∧ (F64.ofInt n).toRat = (n : ℚ) * θ := by
  obtain ⟨θ, h1, h2, h3⟩ := roundRat_rel n 1 Nat.one_pos
  exact ⟨θ, h1, h2, by simpa [F64.ofInt] using h3⟩

theorem mul_rel (a b : F64) :
    ∃ θ : ℚ, 1 - 1 / 2 ^ 53 ≤ θ ∧ θ ≤ 1 + 1 / 2 ^ 52 ∧
      (F64.mul a b).toRat = a.toRat * b.toRat * θ := by
  obtain ⟨θ, h1, h2, h3⟩ :=
    roundRat_rel (a.m * b.m * 2 ^ (a.e + b.e).toNat) (2 ^ (-(a.e + b.e)).toNat)
      (Nat.two_pow_pos _)
  refine ⟨θ, h1, h2, ?_⟩
  have hval : ((a.m * b.m * 2 ^ (a.e + b.e).toNat : Int) : ℚ) /
      ((2 ^ (-(a.e + b.e)).toNat : Nat) : ℚ) = a.toRat * b.toRat := by
    unfold F64.toRat
    push_cast
    rw [mul_div_assoc, ← two_zpow_split, zpow_add₀ (by norm_num)]
    ring
  unfold F64.mul
  simp only
  rw [h3, hval]

theorem add_rel (a b : F64) :
    ∃ θ : ℚ, 1 - 1 / 2 ^ 53 ≤ θ ∧ θ ≤ 1 + 1 / 2 ^ 52 ∧
      (F64.add a b).toRat = (a.toRat + b.toRat) * θ := by
  obtain ⟨θ, h1, h2, h3⟩ :=
    roundRat_rel ((a.m * 2 ^ (a.e - min a.e b.e).toNat + b.m * 2 ^ (b.e - min a.e b.e).toNat) *
      2 ^ (min a.e b.e).toNat) (2 ^ (-(min a.e b.e)).toNat) (Nat.two_pow_pos _)
  refine ⟨θ, h1, h2, ?_⟩
  have ha : (2 : ℚ) ^ (a.e - min a.e b.e).toNat = (2 : ℚ) ^ (a.e - min a.e b.e) := by
    rw [← zpow_natCast, Int.toNat_of_nonneg (by omega)]
  have hb : (2 : ℚ) ^ (b.e - min a.e b.e).toNat = (2 : ℚ) ^ (b.e - min a.e b.e) := by
    rw [← zpow_natCast, Int.toNat_of_nonneg (by omega)]
  have hval : (((a.m * 2 ^ (a.e - min a.e b.e).toNat + b.m * 2 ^ (b.e - min a.e b.e).toNat) *
      2 ^ (min a.e b.e).toNat : Int) : ℚ) / ((2 ^ (-(min a.e b.e)).toNat : Nat) : ℚ) =
      a.toRat + b.toRat := by
    unfold F64.toRat
    push_cast
    rw [mul_div_assoc, ← two_zpow_split, ha, hb, add_mul, mul_assoc, mul_assoc,
      ← zpow_add₀ (by norm_num), ← zpow_add₀ (by norm_num)]
    simp
  unfold F64.add
  simp only
  rw [h3, hval]

theorem div_rel (a b : F64) (hb : 0 < b.m) :
    ∃ θ : ℚ, 1 - 1 / 2 ^ 53 ≤ θ ∧ θ ≤ 1 + 1 / 2 ^ 52 ∧
      (F64.div a b).toRat = a.toRat / b.toRat * θ := by
  obtain ⟨θ, h1, h2, h3⟩ :=
    roundRat_rel (a.m * 2 ^ (a.e - b.e).toNat) (b.m.natAbs * 2 ^ (-(a.e - b.e)).toNat)
      (Nat.mul_pos (Int.natAbs_pos.2 (by omega)) (Nat.two_pow_pos _))
  refine ⟨θ, h1, h2, ?_⟩
  have hbm : ((b.m.natAbs : Nat) : ℚ) = (b.m : ℚ) := by
    have hq : (0 : ℚ) ≤ b.m := by exact_mod_cast (le_of_lt hb)
    rw [Nat.cast_natAbs, Int.cast_abs, abs_of_nonneg hq]
  have hbQ : (b.m : ℚ) ≠ 0 := by
    have : (0 : ℚ) < b.m := by exact_mod_cast hb
    exact ne_of_gt this
  have hval : ((a.m * 2 ^ (a.e - b.e).toNat : Int) : ℚ) /
      ((b.m.natAbs * 2 ^ (-(a.e - b.e)).toNat : Nat) : ℚ) = a.toRat / b.toRat := by
    unfold F64.toRat
    push_cast
    rw [hbm]
    have h2e : (2 : ℚ) ^ (a.e - b.e) = (2 : ℚ) ^ a.e / (2 : ℚ) ^ b.e := by
      rw [zpow_sub₀ (by norm_num)]
    have hsplit := two_zpow_split (a.e - b.e)
    have hp1 : (0 : ℚ) < (2 : ℚ) ^ (-(a.e - b.e)).toNat := by positivity
    have hp2 : (0 : ℚ) < (2 : ℚ) ^ b.e := zpow_pos (by norm_num) _
    have hx : (2 : ℚ) ^ (a.e - b.e).toNat =
        (2 : ℚ) ^ a.e / (2 : ℚ) ^ b.e * (2 : ℚ) ^ (-(a.e - b.e)).toNat := by
      rw [← h2e, hsplit]
      field_simp
    rw [hx]
    field_simp
    ring
  unfold F64.div
  simp only
  rw [h3, hval]


/-- A value between `a * w` and `b * w`, once rounded, lies between
`a * (1 - 2^-53) * w` and `b * (1 + 2^-52) * w`. -/
theorem scaled_bounds (w v θ a b : ℚ) (hw : 0 ≤ w) (ha : 0 ≤ a) (h1 : a * w ≤ v)
    (h2 : v ≤ b * w) (hθ1 : 1 - 1 / 2 ^ 53 ≤ θ) (hθ2 : θ ≤ 1 + 1 / 2 ^ 52) :
    a * (1 - 1 / 2 ^ 53) * w ≤ v * θ ∧ v * θ ≤ b * (1 + 1 / 2 ^ 52) * w := by
  have hv : 0 ≤ v := le_trans (mul_nonneg ha hw) h1
  have hH : (0 : ℚ) ≤ 1 - 1 / 2 ^ 53 := by norm_num
  have hG : (0 : ℚ) ≤ 1 + 1 / 2 ^ 52 := by norm_num
  constructor
  · calc a * (1 - 1 / 2 ^ 53) * w = a * w * (1 - 1 / 2 ^ 53) := by ring
      _ ≤ v * (1 - 1 / 2 ^ 53) := mul_le_mul_of_nonneg_right h1 hH
      _ ≤ v * θ := mul_le_mul_of_nonneg_left hθ1 hv
  · calc v * θ ≤ v * (1 + 1 / 2 ^ 52) := mul_le_mul_of_nonneg_left hθ2 hv
      _ ≤ b * w * (1 + 1 / 2 ^ 52) := mul_le_mul_of_nonneg_right h2 hG
      _ = b * (1 + 1 / 2 ^ 52) * w := by ring

theorem ofInt_billion :
    (F64.ofInt 1000000000).toRat = 1000000000 ∧ 0 < (F64.ofInt 1000000000).m := by
  have h := ofInt_exact 1000000000 (by decide) (by decide)
  constructor
  · rw [h, toRat_dyadic]
    norm_num
  · rw [h]
    unfold F64.dyadic
    positivity

/-- The binary64 value of `d.Seconds()` for a positive duration is the exact
number of seconds up to three roundings. -/
theorem seconds_bounds (d : Int) (hd : 0 < d) :
    (1 - 1 / 2 ^ 53) ^ 3 * ((d : ℚ) / 1000000000) ≤ (Seconds d).toRat ∧
      (Seconds d).toRat ≤ (1 + 1 / 2 ^ 52) ^ 3 * ((d : ℚ) / 1000000000) := by
  have hS : (0 : Int) < Second := by decide
  have hsec : 0 ≤ Int.tdiv d Second := Int.tdiv_nonneg (le_of_lt hd) (le_of_lt hS)
  have hnsec : 0 ≤ Int.tmod d Second := Int.tmod_nonneg _ (le_of_lt hd)
  have hsplit : Int.tdiv d Second * Second + Int.tmod d Second = d := by
    have := Int.tmod_add_tdiv d Second
    linarith [Int.mul_comm Second (Int.tdiv d Second)]
  obtain ⟨θ2, a2, b2, e2⟩ := ofInt_rel (Int.tdiv d Second)
  obtain ⟨θ3, a3, b3, e3⟩ := ofInt_rel (Int.tmod d Second)
  obtain ⟨hE, hEm⟩ := ofInt_billion
  obtain ⟨θ4, a4, b4, e4⟩ :=
    div_rel (F64.ofInt (Int.tmod d Second)) (F64.ofInt 1000000000) hEm
  obtain ⟨θ5, a5, b5, e5⟩ :=
    add_rel (F64.ofInt (Int.tdiv d Second))
      (F64.div (F64.ofInt (Int.tmod d Second)) (F64.ofInt 1000000000))
  have hsQ : (0 : ℚ) ≤ (Int.tdiv d Second : ℚ) := by exact_mod_cast hsec
  have hnQ : (0 : ℚ) ≤ (Int.tmod d Second : ℚ) := by exact_mod_cast hnsec
  have hdQ : (d : ℚ) = (Int.tdiv d Second : ℚ) * 1000000000 + (Int.tmod d Second : ℚ) := by
    have : ((Int.tdiv d Second * Second + Int.tmod d Second : Int) : ℚ) = (d : ℚ) := by
      rw [hsplit]
    rw [← this]
    simp [Second]
  generalize (Int.tdiv d Second : ℚ) = s at *
  generalize (Int.tmod d Second : ℚ) = ns at *
  have hval : (Seconds d).toRat = (s * θ2 + ns * θ3 / 1000000000 * θ4) * θ5 := by
    unfold Seconds
    simp only
    rw [e5, e4, e2, e3, hE]
  have hH : (0 : ℚ) ≤ 1 - 1 / 2 ^ 53 := by norm_num
  have hH1 : (1 : ℚ) - 1 / 2 ^ 53 ≤ 1 := by norm_num
  have hG1 : (1 : ℚ) ≤ 1 + 1 / 2 ^ 52 := by norm_num
  -- the seconds part
  obtain ⟨l1, u1⟩ := scaled_bounds s s θ2 1 1 hsQ (by norm_num) (by simp) (by simp) a2 b2
  -- the nanoseconds part, rounded twice
  have hns9 : (0 : ℚ) ≤ ns / 1000000000 := div_nonneg hnQ (by norm_num)
  obtain ⟨l2, u2⟩ := scaled_bounds (ns / 1000000000) (ns / 1000000000) θ3 1 1 hns9
    (by norm_num) (by simp) (by simp) a3 b3
  obtain ⟨l3, u3⟩ := scaled_bounds (ns / 1000000000) (ns / 1000000000 * θ3) θ4 _ _ hns9
    (by norm_num) l2 u2 a4 b4
  have hrew : ns * θ3 / 1000000000 * θ4 = ns / 1000000000 * θ3 * θ4 := by ring
  -- the sum
  have lsum : (1 - 1 / 2 ^ 53) ^ 2 * (s + ns / 1000000000) ≤
      s * θ2 + ns * θ3 / 1000000000 * θ4 := by
    rw [hrew]
    have : (1 - 1 / 2 ^ 53 : ℚ) ^ 2 * s ≤ 1 * (1 - 1 / 2 ^ 53) * s := by
      have : (1 - 1 / 2 ^ 53 : ℚ) ^ 2 ≤ 1 * (1 - 1 / 2 ^ 53) := by norm_num
      exact mul_le_mul_of_nonneg_right this hsQ
    nlinarith
  have usum : s * θ2 + ns * θ3 / 1000000000 * θ4 ≤
      (1 + 1 / 2 ^ 52) ^ 2 * (s + ns / 1000000000) := by
    rw [hrew]
    have : 1 * (1 + 1 / 2 ^ 52 : ℚ) * s ≤ (1 + 1 / 2 ^ 52) ^ 2 * s := by
      have : 1 * (1 + 1 / 2 ^ 52 : ℚ) ≤ (1 + 1 / 2 ^ 52) ^ 2 := by norm_num
      exact mul_le_mul_of_nonneg_right this hsQ
    nlinarith
  have ht : (d : ℚ) / 1000000000 = s + ns / 1000000000 := by
    rw [hdQ]
    field_simp
  have htpos : (0 : ℚ) ≤ s + ns / 1000000000 := add_nonneg hsQ hns9
  obtain ⟨l5, u5⟩ := scaled_bounds (s + ns / 1000000000) _ θ5 _ _ htpos (by positivity)
    lsum usum a5 b5
  rw [hval, ht]
  constructor
  · calc (1 - 1 / 2 ^ 53 : ℚ) ^ 3 * (s + ns / 1000000000)
        = (1 - 1 / 2 ^ 53) ^ 2 * (1 - 1 / 2 ^ 53) * (s + ns / 1000000000) := by ring
      _ ≤ _ := l5
  · calc (s * θ2 + ns * θ3 / 1000000000 * θ4) * θ5
        ≤ (1 + 1 / 2 ^ 52) ^ 2 * (1 + 1 / 2 ^ 52) * (s + ns / 1000000000) := u5
      _ = (1 + 1 / 2 ^ 52 : ℚ) ^ 3 * (s + ns / 1000000000) := by ring


theorem toInt_of_fits (rt : Runtime) (v : Int) (h1 : -2 ^ 63 ≤ v) (h2 : v < 2 ^ 63) :
    rt.toInt v = v := by
  unfold Runtime.toInt
  rw [if_pos ⟨h1, h2⟩]

/-- The binary64 product `float64(R) * d.Seconds()` for `R ≥ 0` and `d > 0` is
the exact product up to five roundings. -/
theorem product_bounds (R d : Int) (hR : 0 ≤ R) (hd : 0 < d) :
    (1 - 1 / 2 ^ 53) ^ 5 * ((R : ℚ) * d / 1000000000) ≤
        (F64.mul (F64.ofInt R) (Seconds d)).toRat ∧
      (F64.mul (F64.ofInt R) (Seconds d)).toRat ≤
        (1 + 1 / 2 ^ 52) ^ 5 * ((R : ℚ) * d / 1000000000) := by
  obtain ⟨ls, us⟩ := seconds_bounds d hd
  obtain ⟨θ1, a1, b1, e1⟩ := ofInt_rel R
  obtain ⟨θ6, a6, b6, e6⟩ := mul_rel (F64.ofInt R) (Seconds d)
  have hRQ : (0 : ℚ) ≤ R := by exact_mod_cast hR
  have hdQ : (0 : ℚ) < d := by exact_mod_cast hd
  have ht : (0 : ℚ) ≤ (d : ℚ) / 1000000000 := by positivity
  have hx : (R : ℚ) * d / 1000000000 = R * ((d : ℚ) / 1000000000) := by ring
  rw [hx, e6, e1]
  generalize (d : ℚ) / 1000000000 = t at ls us ht ⊢
  generalize (Seconds d).toRat = S at ls us ⊢
  obtain ⟨lA, uA⟩ := scaled_bounds R R θ1 1 1 hRQ (by norm_num) (by simp) (by simp) a1 b1
  have hH : (0 : ℚ) ≤ 1 - 1 / 2 ^ 53 := by norm_num
  have hS0 : 0 ≤ S := le_trans (mul_nonneg (pow_nonneg hH 3) ht) ls
  have hA0 : 0 ≤ (R : ℚ) * θ1 := le_trans (mul_nonneg (by norm_num) hRQ) lA
  have lAS : (1 - 1 / 2 ^ 53 : ℚ) ^ 4 * (R * t) ≤ R * θ1 * S := by
    calc (1 - 1 / 2 ^ 53 : ℚ) ^ 4 * (R * t)
        = (1 * (1 - 1 / 2 ^ 53) * R) * ((1 - 1 / 2 ^ 53) ^ 3 * t) := by ring
      _ ≤ (R * θ1) * S :=
        mul_le_mul lA ls (mul_nonneg (pow_nonneg hH 3) ht) hA0
  have uAS : (R : ℚ) * θ1 * S ≤ (1 + 1 / 2 ^ 52) ^ 4 * (R * t) := by
    calc (R : ℚ) * θ1 * S
        ≤ (1 * (1 + 1 / 2 ^ 52) * R) * ((1 + 1 / 2 ^ 52) ^ 3 * t) :=
          mul_le_mul uA us hS0 (by positivity)
      _ = (1 + 1 / 2 ^ 52 : ℚ) ^ 4 * (R * t) := by ring
  obtain ⟨l6, u6⟩ := scaled_bounds (R * t) (R * θ1 * S) θ6 _ _ (mul_nonneg hRQ ht)
    (by positivity) lAS uAS a6 b6
  constructor
  · calc (1 - 1 / 2 ^ 53 : ℚ) ^ 5 * (R * t)
        = (1 - 1 / 2 ^ 53) ^ 4 * (1 - 1 / 2 ^ 53) * (R * t) := by ring
      _ ≤ _ := l6
  · calc (R : ℚ) * θ1 * S * θ6 ≤ (1 + 1 / 2 ^ 52) ^ 4 * (1 + 1 / 2 ^ 52) * (R * t) := u6
      _ = (1 + 1 / 2 ^ 52 : ℚ) ^ 5 * (R * t) := by ring

/-- For a non-negative sample rate and a positive period whose exact product
`R * seconds` is below `2^49`, the dispatch count computed in binary64 is the
exact `floor (R * seconds)` or a neighbour of it. -/
theorem dispatchCount_near_floor (rt : Runtime) (c : AbilityConfiguration)
    (hR : 0 ≤ c.SampleRate) (hD : 0 < c.DispatchDuration)
    (hx : c.SampleRate * c.DispatchDuration < 2 ^ 49 * 1000000000) :
    |dispatchCount rt c - c.SampleRate * c.DispatchDuration / 1000000000| ≤ 1 := by
  obtain ⟨lo, hi⟩ := product_bounds c.SampleRate c.DispatchDuration hR hD
  have hxQ : ((c.SampleRate : ℚ) * c.DispatchDuration) / 1000000000 < 2 ^ 49 := by
    rw [div_lt_iff₀ (by norm_num)]
    exact_mod_cast hx
  have hx0 : (0 : ℚ) ≤ ((c.SampleRate : ℚ) * c.DispatchDuration) / 1000000000 := by
    have h1 : (0 : ℚ) ≤ c.SampleRate := by exact_mod_cast hR
    have h2 : (0 : ℚ) ≤ c.DispatchDuration := by exact_mod_cast (le_of_lt hD)
    positivity
  have hfloorx : ⌊((c.SampleRate : ℚ) * c.DispatchDuration) / 1000000000⌋ =
      c.SampleRate * c.DispatchDuration / 1000000000 := by
    have := Rat.floor_intCast_div_natCast (c.SampleRate * c.DispatchDuration) 1000000000
    push_cast at this
    exact this
  generalize ((c.SampleRate : ℚ) * c.DispatchDuration) / 1000000000 = x at lo hi hxQ hx0 hfloorx
  rw [← hfloorx]
  have hy := floor_eq_floor_toRat (F64.mul (F64.ofInt c.SampleRate) (Seconds c.DispatchDuration))
  generalize (F64.mul (F64.ofInt c.SampleRate) (Seconds c.DispatchDuration)).toRat = y at lo hi hy
  have hG : (1 + 1 / 2 ^ 52 : ℚ) ^ 5 ≤ 1 + 1 / 2 ^ 49 := by norm_num
  have hH : (1 : ℚ) - 1 / 2 ^ 49 ≤ (1 - 1 / 2 ^ 53) ^ 5 := by norm_num
  have hyx1 : y < x + 1 := by nlinarith
  have hyx2 : x - 1 < y := by nlinarith
  have hy0 : 0 ≤ y := le_trans (mul_nonneg (by norm_num) hx0) lo
  have f1 : (⌊y⌋ : ℚ) ≤ y := Int.floor_le y
  have f2 : y < ⌊y⌋ + 1 := Int.lt_floor_add_one y
  have g1 : (⌊x⌋ : ℚ) ≤ x := Int.floor_le x
  have g2 : x < ⌊x⌋ + 1 := Int.lt_floor_add_one x
  have c1 : ⌊y⌋ < ⌊x⌋ + 2 := by
    have : (⌊y⌋ : ℚ) < ⌊x⌋ + 2 := by linarith
    exact_mod_cast this
  have c2 : ⌊x⌋ < ⌊y⌋ + 2 := by
    have : (⌊x⌋ : ℚ) < ⌊y⌋ + 2 := by linarith
    exact_mod_cast this
  have c3 : 0 ≤ ⌊y⌋ := Int.floor_nonneg.2 hy0
  have c4 : ⌊y⌋ < 2 ^ 63 := by
    have : (⌊y⌋ : ℚ) < ((2 ^ 63 : Int) : ℚ) := by
      push_cast
      linarith [show (2 : ℚ) ^ 49 + 1 < 2 ^ 63 by norm_num]
    exact_mod_cast this
  unfold dispatchCount
  rw [if_pos hD, hy, toInt_of_fits rt _ (by omega) c4, abs_le]
  constructor <;> omega

set_option maxRecDepth 100000 in
theorem seconds_half : Seconds (500 * Millisecond) = F64.dyadic 1 1 := by decide

theorem div_zero_left (x : F64) : F64.div ⟨0, 0⟩ x = ⟨0, 0⟩ := by
  simp [F64.div, roundRat]

theorem add_dyadic_zero (k : Int) (hk : k ≠ 0) (h53 : k.natAbs < 2 ^ 53) :
    F64.add (F64.dyadic k 0) ⟨0, 0⟩ = F64.dyadic k 0 := by
  have hL := ilog2_le_52 k.natAbs (Int.natAbs_pos.2 hk) h53
  have hr := roundRat_exact k (52 - ilog2 k.natAbs) (52 - ilog2 k.natAbs) hk h53
  unfold F64.add F64.dyadic
  simp only
  generalize hkk : 52 - ilog2 k.natAbs = kk at hr ⊢
  have emin : min (-(((kk + 0 : Nat)) : Int)) 0 = -(kk : Int) := by
    simp
  rw [emin]
  have e1 : (-(((kk + 0 : Nat)) : Int) - -(kk : Int)).toNat = 0 := by omega
  have e2 : ((0 : Int) - -(kk : Int)).toNat = kk := by omega
  have e3 : (-(kk : Int)).toNat = 0 := by omega
  have e4 : (- -(kk : Int)).toNat = kk := by omega
  rw [e1, e2, e3, e4]
  simp only [pow_zero, Int.mul_one, Int.zero_mul, Int.add_zero]
  rw [hr]
  congr 1
  omega

/-- A whole number of seconds is converted exactly. -/
theorem seconds_whole (k : Int) (hk : 0 < k) (h53 : k.natAbs < 2 ^ 53) :
    Seconds (k * Second) = F64.dyadic k 0 := by
  have hS : Second ≠ 0 := by decide
  unfold Seconds
  simp only [Int.mul_tdiv_cancel k hS, Int.mul_tmod_left, ofInt_zero, div_zero_left]
  rw [ofInt_exact k (by omega) h53, add_dyadic_zero k (by omega) h53]

/-- With the 500ms period the dispatch count is half the sample rate, rounded down. -/
theorem dispatchCount_half (rt : Runtime) (c : AbilityConfiguration)
    (hD : c.DispatchDuration = 500 * Millisecond) (h53 : c.SampleRate.natAbs < 2 ^ 53) :
    dispatchCount rt c = c.SampleRate / 2 := by
  unfold dispatchCount
  rw [if_pos (by rw [hD]; decide), hD, seconds_half]
  by_cases h0 : c.SampleRate = 0
  · rw [h0, ofInt_zero, mul_zero_left]
    simp [F64.floor, Runtime.toInt]
  · rw [ofInt_exact _ h0 h53, mul_dyadic _ 1 0 1 h0 (by decide) (by simpa using h53),
      floor_dyadic]
    simp only [Int.mul_one, Nat.zero_add, pow_one]
    exact toInt_of_fits rt _ (by omega) (by omega)

/-- With a period of `k` whole seconds the dispatch count is `k` times the
sample rate, as long as that product has at most 53 bits. -/
theorem dispatchCount_whole_seconds (rt : Runtime) (c : AbilityConfiguration) (k : Int)
    (hk : 0 < k) (hD : c.DispatchDuration = k * Second)
    (h53 : (c.SampleRate * k).natAbs < 2 ^ 53) :
    dispatchCount rt c = c.SampleRate * k := by
  have hS : (0 : Int) < Second := by decide
  unfold dispatchCount
  rw [if_pos (by rw [hD]; exact Int.mul_pos hk hS), hD]
  by_cases h0 : c.SampleRate = 0
  · rw [h0, ofInt_zero, mul_zero_left]
    simp [F64.floor, Runtime.toInt]
  · have hk53 : k.natAbs < 2 ^ 53 := by
      rw [Int.natAbs_mul] at h53
      have : 1 ≤ c.SampleRate.natAbs := Int.natAbs_pos.2 h0
      exact Nat.lt_of_le_of_lt (Nat.le_mul_of_pos_left _ this) h53
    have hR53 : c.SampleRate.natAbs < 2 ^ 53 := by
      rw [Int.natAbs_mul] at h53
      have : 1 ≤ k.natAbs := Int.natAbs_pos.2 (by omega)
      exact Nat.lt_of_le_of_lt (Nat.le_mul_of_pos_right _ this) h53
    rw [seconds_whole k hk hk53, ofInt_exact _ h0 hR53,
      mul_dyadic _ k 0 0 h0 (by omega) h53, floor_dyadic]
    simp only [Nat.add_zero, pow_zero, Int.ediv_one]
    generalize c.SampleRate * k = z at h53 ⊢
    exact toInt_of_fits rt z (by omega) (by omega)

set_option maxRecDepth 100000 in
/-- The dispatch count is computed in binary64: for 100 samples per second and a
period of 290ms it is 28, although `100 * 0.29 = 29`. -/
theorem dispatchCount_rounds_in_binary64 :
    dispatchCount linuxAmd64
        { hearingConfig with DispatchDuration := 290 * Millisecond, SampleRate := 100 } = 28 ∧
      (100 * (290 * Millisecond) / 1000000000 : Int) = 29 := by
  decide

set_option maxRecDepth 100000 in
/-- A dispatch count that does not fit an `int`: the product is `2^64`, the
conversion yields `-2^63` on amd64, and `make` panics before any read; the
deferred `Stop` still runs. -/
theorem run_huge_count_panics :
    dispatchCount linuxAmd64 hugeConfig = -2 ^ 63 ∧
      (NewAbility (lifecycleReader none none) hugeConfig).Run linuxAmd64 background 5 =
        ⟨[Action.start, Action.stop], [], .panicked⟩ := by
  decide

set_option maxRecDepth 100000 in
/-- C3, as stated, fails: with no dispatch period configured (`DispatchDuration = 0`)
and a sample rate of 16000, the ability built by `NewAbility` runs with a
dispatch count of 8000, not 16000. -/
theorem newAbility_no_period_dispatchCount :
    noPeriodConfig.DispatchDuration = 0 ∧ noPeriodConfig.SampleRate = 16000 ∧
      dispatchCount linuxAmd64 (NewAbility plainReader noPeriodConfig).c = 8000 ∧
      dispatchCount linuxAmd64 (NewAbility plainReader noPeriodConfig).c ≠
        noPeriodConfig.SampleRate := by
  decide

/-- C3 (amended). For an ability built by `NewAbility`, the dispatch count used
by `Run` is: `SampleRate` when `DispatchDuration` is negative; `floor (SampleRate / 2)`
when `DispatchDuration` is zero, because `NewAbility` replaces it by 500ms (sample
rates of at most 53 bits); `SampleRate * k` for a period of `k` whole seconds
(products of at most 53 bits); and, for any positive period and a non-negative
sample rate whose product is below `2^49`, the exact
`floor (SampleRate * seconds)` or a neighbour of it, the product being computed
in binary64. -/
theorem newAbility_dispatchCount (rt : Runtime) (r : SampleReader) (c : AbilityConfiguration) :
    (c.DispatchDuration < 0 → dispatchCount rt (NewAbility r c).c = c.SampleRate) ∧
      (c.DispatchDuration = 0 → c.SampleRate.natAbs < 2 ^ 53 →
        dispatchCount rt (NewAbility r c).c = c.SampleRate / 2) ∧
      (∀ k : Int, 0 < k → c.DispatchDuration = k * Second →
        (c.SampleRate * k).natAbs < 2 ^ 53 →
        dispatchCount rt (NewAbility r c).c = c.SampleRate * k) ∧
      (0 < c.DispatchDuration → 0 ≤ c.SampleRate →
        c.SampleRate * c.DispatchDuration < 2 ^ 49 * 1000000000 →
        |dispatchCount rt (NewAbility r c).c -
          c.SampleRate * c.DispatchDuration / 1000000000| ≤ 1) := by
  have hS : (0 : Int) < Second := by decide
  have keep : c.DispatchDuration ≠ 0 → (NewAbility r c).c = c := by
    intro h
    simp [NewAbility, h]
  have dflt : c.DispatchDuration = 0 →
      (NewAbility r c).c = { c with DispatchDuration := 500 * Millisecond } := by
    intro h
    simp [NewAbility, h]
  refine ⟨?_, ?_, ?_, ?_⟩
  · intro h
    rw [keep (by omega)]
    unfold dispatchCount
    rw [if_neg (by omega)]
  · intro h h53
    rw [dflt h]
    exact dispatchCount_half rt _ rfl h53
  · intro k hk hD h53
    have hpos : 0 < c.DispatchDuration := by rw [hD]; exact Int.mul_pos hk hS
    rw [keep (by omega)]
    exact dispatchCount_whole_seconds rt c k hk hD h53
  · intro hD hR hx
    rw [keep (by omega)]
    exact dispatchCount_near_floor rt c hR hD hx

set_option maxRecDepth 100000 in
/-- The dispatch count theorem at 16000 samples per second: 32000 for a period
of two seconds, 8000 when no period is configured, and within one of
`floor (16000 * 0.5)` for the period of 500ms. -/
theorem newAbility_dispatchCount_witness :
    dispatchCount linuxAmd64 (NewAbility plainReader twoSecondsConfig).c = 16000 * 2 ∧
      dispatchCount linuxAmd64 (NewAbility plainReader noPeriodConfig).c = 16000 / 2 ∧
      |dispatchCount linuxAmd64 (NewAbility plainReader hearingConfig).c -
        16000 * (500 * Millisecond) / 1000000000| ≤ 1 :=
  ⟨(newAbility_dispatchCount linuxAmd64 plainReader twoSecondsConfig).2.2.1 2 (by decide)
      (by decide) (by decide),
    (newAbility_dispatchCount linuxAmd64 plainReader noPeriodConfig).2.1 (by decide)
      (by decide),
    (newAbility_dispatchCount linuxAmd64 plainReader hearingConfig).2.2.2 (by decide)
      (by decide) (by decide)⟩

end Astibob
